import Mathlib

/-!
Verification development for the CLY grammar engine (`cly/parser.py`,
`cly/builder.py`).  Python strings are modelled as `List Char`, the grammar
tree as an inductive `GNode`, compiled regular expressions as matching
functions on the remaining input (the repository only compiles the concrete
patterns modelled here), and the recursive-descent driver as a fuel-indexed
interpreter returning `Except Err Context`.  Python exceptions are the
`Err` constructors; running out of fuel models a Python parse that does not
terminate (and therefore produces no context).
-/

namespace Cly

/-- Python strings. -/
abbrev Str := List Char

/-- Python `\s` / `str.strip` whitespace: space, tab, newline, return,
form feed, vertical tab. -/
def pyIsSpace (c : Char) : Bool :=
  c == ' ' || c == '\t' || c == '\n' || c == '\r' || c == '\x0b' || c == '\x0c'

/-- `s.startswith(pre)`. -/
def strStarts : Str → Str → Bool
  | [], _ => true
  | _ :: _, [] => false
  | c :: p, d :: s => c == d && strStarts p s

/-- Length of the maximal leading run satisfying `p`. -/
def takeWhileLen (p : Char → Bool) : Str → Nat
  | [] => 0
  | c :: cs => if p c then takeWhileLen p cs + 1 else 0

/-- `s.strip()`: remove leading and trailing whitespace. -/
def pyStrip (s : Str) : Str :=
  ((s.dropWhile pyIsSpace).reverse.dropWhile pyIsSpace).reverse

/-- Case-insensitive `startswith` (ASCII lowering, as `(?i)` on the
repository's plain-word alternations). -/
def ciStarts : Str → Str → Bool
  | [], _ => true
  | _ :: _, [] => false
  | c :: p, d :: s => (c.toLower == d.toLower) && ciStarts p s

/-- `path.split(sep)` for a single-character separator: all segments,
including empty ones. -/
def splitOnSlash : Str → List Str
  | [] => [[]]
  | c :: s =>
    if c = '/' then [] :: splitOnSlash s
    else
      match splitOnSlash s with
      | seg :: rest => (c :: seg) :: rest
      | [] => [[c]]

/-- `posixpath.basename`: everything after the last slash. -/
def basenameP (p : Str) : Str :=
  (p.reverse.takeWhile (fun c => c ≠ '/')).reverse

/-- `posixpath.dirname`: everything up to the last slash, with trailing
slashes stripped unless the head is all slashes. -/
def dirnameP (p : Str) : Str :=
  let h := p.take (p.length - (basenameP p).length)
  if h ≠ [] ∧ h.any (fun c => c ≠ '/') then
    (h.reverse.dropWhile (fun c => c = '/')).reverse
  else h

/-- `posixpath.join(a, b)` (two-argument form, as used by the source). -/
def joinP (a b : Str) : Str :=
  if strStarts ['/'] b then b
  else if a = [] ∨ a.getLast? = some '/' then a ++ b
  else a ++ '/' :: b

/-- `posixpath.normpath` (Python 2 algorithm). -/
def normpathP (p : Str) : Str :=
  if p = [] then ['.']
  else
    let initialSlashes : Nat :=
      if strStarts ['/', '/'] p ∧ ¬ strStarts ['/', '/', '/'] p then 2
      else if strStarts ['/'] p then 1
      else 0
    let newComps := (splitOnSlash p).foldl
      (fun acc comp =>
        if comp = [] ∨ comp = ['.'] then acc
        else if comp ≠ ['.', '.'] ∨ (initialSlashes = 0 ∧ acc = [])
                ∨ acc.getLast? = some ['.', '.'] then acc ++ [comp]
        else if acc ≠ [] then acc.dropLast
        else acc) []
    let res := List.replicate initialSlashes '/' ++ List.intercalate ['/'] newComps
    if res = [] then ['.'] else res

/-- All suffixes of a string, longest first. -/
def suffixesL : Str → List Str
  | [] => [[]]
  | c :: t => (c :: t) :: suffixesL t

/-- `fnmatch.fnmatch` on POSIX for the glob features the repository uses
(`*`, `?` and literal characters; character classes do not occur in its
alias targets or file filters).  `*` translates to the regex `.*`, so it
matches when the rest of the pattern matches some suffix. -/
def globMatch : Str → Str → Bool
  | [], s => s.isEmpty
  | c :: p, s =>
    if c = '*' then (suffixesL s).any (fun t => globMatch p t)
    else
      match s with
      | [] => false
      | d :: t => (c == '?' || c == d) && globMatch p t

/-- Values stored in `Context.vars` (strings, ints, booleans, and the
lists a `Variable` accumulates when `traversals != 1`). -/
inductive Value where
  | vstr (s : Str)
  | vint (z : Int)
  | vbool (b : Bool)
  | vlist (l : List Value)
  | vnone

/-- `len(v)` on a `vars` value: defined for strings and lists, a
`TypeError` for the scalar values `int`, `bool` and `None`. -/
def pyLen : Value → Option Nat
  | .vstr s => some s.length
  | .vlist l => some l.length
  | _ => none

/-!
### Compiled patterns

A compiled regular expression (`re.compile(p).match(s, pos)`) is modelled
as a function from the remaining input `s[pos:]` to the length of the
match, `none` meaning no match.  The functions below are the semantics of
the concrete patterns compiled by the repository.
-/

/-- Matcher for the default separator `\s+|\s*$`: a maximal nonempty
whitespace run, or the empty match at end of input (`$` before a trailing
newline cannot fire here, since a newline is itself whitespace). -/
def sepRun (s : Str) : Option Nat :=
  let k := takeWhileLen pyIsSpace s
  if 0 < k then some k else if s = [] then some 0 else none

/-- Matcher for a literal pattern such as a node name without regex
metacharacters. -/
def litRun (w : Str) (s : Str) : Option Nat :=
  if strStarts w s then some w.length else none

/-- Matcher for the empty pattern `''` (Grammar, Group, Alias): a
zero-width match anywhere. -/
def emptyRun (_ : Str) : Option Nat := some 0

/-- Matcher for `$` (Action): zero-width at end of input or before a
trailing newline. -/
def dollarRun (s : Str) : Option Nat :=
  if s = [] ∨ s = ['\n'] then some 0 else none

/-- Matcher for `\d+` (Integer): a maximal nonempty digit run. -/
def digitsRun (s : Str) : Option Nat :=
  let k := takeWhileLen Char.isDigit s
  if 0 < k then some k else none

/-- Matcher for `\w+` (Variable default): a maximal nonempty run of word
characters. -/
def wordRun (s : Str) : Option Nat :=
  let k := takeWhileLen (fun c => c.isAlphanum || c == '_') s
  if 0 < k then some k else none

/-- Matcher for `\S+` (File): a maximal nonempty run of non-whitespace. -/
def nonspaceRun (s : Str) : Option Nat :=
  let k := takeWhileLen (fun c => ¬ pyIsSpace c) s
  if 0 < k then some k else none

/-- The `Boolean.TRUE` word list, in source order. -/
def pyTRUE : List Str :=
  [['t','r','u','e'], ['y','e','s'], ['a','y','e'],
   ['e','n','a','b','l','e'], ['e','n','a','b','l','e','d'],
   ['o','n'], ['1']]

/-- The `Boolean.FALSE` word list, in source order. -/
def pyFALSE : List Str :=
  [['f','a','l','s','e'], ['n','o'], ['d','i','s','a','b','l','e'],
   ['d','i','s','a','b','l','e','d'], ['o','f','f'], ['0']]

/-- Matcher for the Boolean pattern `(?i)(true|yes|...)`: the first
alternative (in source order) that matches case-insensitively at the
current position. -/
def booleanRun (s : Str) : Option Nat :=
  ((pyTRUE ++ pyFALSE).find? (fun w => ciStarts w s)).map List.length

/-- `int()` of a nonempty digit string. -/
def decDigits (s : Str) : Int :=
  s.foldl (fun a c => a * 10 + (Int.ofNat (c.toNat - '0'.toNat))) 0

/-!
### The grammar tree

`NodeCore` models the attributes shared by every `Node`; `NKind` models
the subclass dispatch (`Grammar`, `Group`, `Alias`, `Action`, `Variable`
and its built-ins, `File`).  As in the source, both the pattern string
(`self.pattern`) and its compiled form (`self._pattern`) are stored.
-/

/-- `Variable.parse` dispatch for the built-ins the claims exercise:
the default (`match.group()`), `Integer.parse` (`int(...)`), and
`Boolean.parse` (`match.group() in self.TRUE` — note: a case-sensitive
membership test on the literally matched text). -/
inductive VParse where
  | generic
  | integer
  | boolean

/-- Evaluate a `Variable.parse` hook on the matched text. -/
def vparse : VParse → Str → Value
  | .generic, txt => .vstr txt
  | .integer, txt => .vint (decDigits txt)
  | .boolean, txt => .vbool (pyTRUE.contains txt)

/-- A node's help provider.  `lazy` is `LazyHelp` (string help); `explicit`
is a `Help`-style callable returning fixed `(key, help)` rows — this is
also what `Action.__init__` installs for string help (a lambda yielding
`(('<eol>', text),)`), since the instance attribute `self.help` set by
`Node.__init__` shadows the `Action.help` method.  A key is `Option Str`
because `LazyHelp` yields the node name, which can be `None`. -/
inductive HelpProvider where
  | lazy (text : Str)
  | explicit (rows : List (Option Str × Str))

/-- Attributes common to every node. -/
structure NodeCore where
  name : Option Str
  patternStr : Option Str
  pat : Str → Option Nat
  sepStr : Str
  sep : Str → Option Nat
  group : Int := 0
  order : Int := 0
  matchCandidates : Bool := false
  traversals : Nat := 1
  helpP : HelpProvider
  visibleOverride : Option Bool := none

/-- Subclass dispatch.  `action` carries the user callback (invoked with
the optional user context and the captured variables) and its
`with_user_context` override; `alias` carries the target path; `var`
carries the parse hook and the optional `var_name`; `file` carries the
filesystem filter configuration (it is a `Variable` for everything else). -/
inductive NKind where
  | plain
  | root
  | group
  | alias (target : Str)
  | action (callback : Option Value → List (Option Str × Value) → Value)
           (withUserContext : Option Bool)
  | var (vp : VParse) (varNameOpt : Option Str)
  | file (includes excludes : List Str) (allowDotfiles allowDirectories : Bool)
         (varNameOpt : Option Str)

/-- A grammar node: attributes, subclass tag, children. -/
inductive GNode where
  | mk (core : NodeCore) (kind : NKind) (children : List GNode)

def GNode.core : GNode → NodeCore
  | .mk c _ _ => c

def GNode.kind : GNode → NKind
  | .mk _ k _ => k

def GNode.children : GNode → List GNode
  | .mk _ _ cs => cs

/-- Lexicographic `≤` on strings (Python string comparison). -/
def lexLe : Str → Str → Bool
  | [], _ => true
  | _ :: _, [] => false
  | c :: s, d :: t => if c = d then lexLe s t else decide (c < d)

/-- `≤` on optional names: Python 2 orders `None` before any string. -/
def optNameLe : Option Str → Option Str → Bool
  | none, _ => true
  | some _, none => false
  | some a, some b => lexLe a b

/-- The child iteration key `(group, order, name)` of `Node.__iter__`. -/
def childKeyLe (a b : GNode) : Bool :=
  if a.core.group ≠ b.core.group then decide (a.core.group < b.core.group)
  else if a.core.order ≠ b.core.order then decide (a.core.order < b.core.order)
  else optNameLe a.core.name b.core.name

/-- `Node.__iter__`: children sorted by `(group, order, name)` (Python's
`sorted` is stable; so is `mergeSort`). -/
def sortChildren (l : List GNode) : List GNode :=
  l.mergeSort childKeyLe

/-- `'%s' % name`: Python 2 renders `None` as the string `"None"`. -/
def fmtName : Option Str → Str
  | some s => s
  | none => ['N', 'o', 'n', 'e']

/-- `node.help(context)`: `LazyHelp` yields `(name, text)` when the name
equals the pattern string, otherwise `('<name>', text)`; an explicit
provider yields its rows. -/
def GNode.helpRows (n : GNode) : List (Option Str × Str) :=
  match n.core.helpP with
  | .lazy text =>
    if n.core.name == n.core.patternStr then [(n.core.name, text)]
    else [(some ('<' :: fmtName n.core.name ++ ['>']), text)]
  | .explicit rows => rows

/-- `Node.path()`: slash-joined names from the root (the root's `None`
name contributes nothing). -/
def pathStr (ns : List Str) : Str :=
  '/' :: List.intercalate ['/'] ns

/-- A node located in a grammar: the node together with the name
components of its path (the source recovers these from `parent`
back-references). -/
structure LNode where
  names : List Str
  node : GNode

/-- `Node.find` restricted to a component list: at each step the first
child (in `(group, order, name)` order) whose name equals the component. -/
def walkFind : GNode → List Str → Option GNode
  | n, [] => some n
  | n, c :: cs =>
    match (sortChildren n.children).find? (fun ch => ch.core.name == some c) with
    | some ch => walkFind ch cs
    | none => none

/-!
### The parse context (`cly.parser.Context`)

Python dicts keyed by strings are association lists preserving insertion
order (updates in place, new keys appended), exactly dict semantics.
`vars` keys are `Option Str` because `var_name` falls back to the node
name, which can be `None`.
-/

/-- `dict.get(k)`. -/
def alistGet? {κ α : Type} [BEq κ] (l : List (κ × α)) (k : κ) : Option α :=
  (l.find? (fun p => p.1 == k)).map (fun p => p.2)

/-- `dict[k] = v`: update in place if present, else append. -/
def alistSet {κ α : Type} [BEq κ] (l : List (κ × α)) (k : κ) (v : α) :
    List (κ × α) :=
  if (l.find? (fun p => p.1 == k)).isSome then
    l.map (fun p => if p.1 == k then (p.1, v) else p)
  else l ++ [(k, v)]

/-- The per-parse state: command, cursor, captured variables, per-path
traversal counters, and the trail of `(node, match)` pairs (a match is
modelled by its matched text, `match.group()`). -/
structure Context where
  command : Str
  cursor : Nat := 0
  userContext : Value := .vnone
  vars : List (Option Str × Value) := []
  traversed : List (Str × Nat) := []
  trail : List (LNode × Option Str) := []

/-- `Context.remaining`: `command[cursor:]`. -/
def Context.remaining (c : Context) : Str := c.command.drop c.cursor

/-- `Context.parsed`: `command[:cursor]`. -/
def Context.parsed (c : Context) : Str := c.command.take c.cursor

/-- `Context.advance(distance)`: `self.cursor += distance`. -/
def Context.advance (c : Context) (d : Nat) : Context :=
  { c with cursor := c.cursor + d }

/-- `Context.selected(node)`: `setdefault(path, 0)` then `+= 1`. -/
def Context.selectedCtx (c : Context) (path : Str) : Context :=
  { c with traversed :=
      alistSet c.traversed path ((alistGet? c.traversed path).getD 0 + 1) }

/-- `Context.traversed(node)`: `self._traversed.get(node.path(), 0)`. -/
def Context.traversedCount (c : Context) (path : Str) : Nat :=
  (alistGet? c.traversed path).getD 0

/-- The Python exceptions the modelled code can raise.  `invalidToken`
and `unexpectedEOL` carry the context, as `InvalidToken(self)` and
`UnexpectedEOL(context)` do.  `outOfFuel` stands for a Python execution
that never returns (unbounded recursion). -/
inductive Err where
  | invalidToken (ctx : Context)
  | unexpectedEOL (ctx : Context)
  | aliasSelected
  | invalidNodePath
  | typeError
  | attributeError
  | indexError
  | outOfFuel

/-- `Node.find` on a slash-separated path from the root, accumulating the
matched components (`filter(None, path.split('/'))`, then a child-name
walk); `InvalidNodePath` when a component is absent. -/
def walkAcc : GNode → List Str → List Str → Except Err LNode
  | n, acc, [] => .ok ⟨acc, n⟩
  | n, acc, c :: cs =>
    match (sortChildren n.children).find? (fun ch => ch.core.name == some c) with
    | some ch => walkAcc ch (acc ++ [c]) cs
    | none => .error .invalidNodePath

/-- `root.find(path)` for an absolute path. -/
def findFromRoot (root : GNode) (path : Str) : Except Err LNode :=
  walkAcc root [] ((splitOnSlash path).filter (fun s => s ≠ []))

/-!
### The filesystem boundary (`File`)

`os.listdir`, `os.path.isdir` and the `~`-expansion map are the only
filesystem inputs `File.match_file` / `File.candidates` consume; they are
abstracted as an environment.
-/

/-- Filesystem environment for `File` nodes. -/
structure FileEnv where
  listdir : Str → List Str
  isdir : Str → Bool
  homeExpand : Str → Str

/-- `os.path.expanduser`: rewrites only paths starting with `~`. -/
def expandU (env : FileEnv) (s : Str) : Str :=
  if strStarts ['~'] s then env.homeExpand s else s

/-- `File.match_file(file, match_directories)`. -/
def matchFile (env : FileEnv) (includes excludes : List Str)
    (allowDotfiles : Bool) (matchDirectories : Bool) (file : Str) : Bool :=
  let f := expandU env file
  if matchDirectories && env.isdir f then true
  else if !allowDotfiles && strStarts ['.'] (basenameP f) then false
  else if excludes.any (fun e => globMatch e f) then false
  else includes.any (fun i => globMatch i f)

/-- The final list comprehension of `File.candidates`
(`[clean(join(dir, f)) for f in candidates if allow_dotfiles or f[0] != '.']`);
`f[0]` on an empty name is an `IndexError`. -/
def fileFinalList (clean : Str → Str) (dir : Str) (allowDotfiles : Bool) :
    List Str → Except Err (List Str)
  | [] => .ok []
  | f :: rest => do
    let more ← fileFinalList clean dir allowDotfiles rest
    if allowDotfiles then pure (clean (joinP dir f) :: more)
    else
      match f with
      | [] => .error .indexError
      | c :: _ => if c ≠ '.' then pure (clean (joinP dir f) :: more) else pure more

/-- The candidate-selection tail of `File.candidates`: the filtered
directory listing, then the single-candidate special cases (a directory
gets a trailing slash and no `clean`, a file gets a trailing space) or
the final dotfile-filtered comprehension. -/
def fileCandsCore (env : FileEnv) (includes excludes : List Str)
    (allowDotfiles : Bool) (clean : Str → Str) (dir file : Str) :
    Except Err (List Str) :=
  match (env.listdir dir).filter
      (fun f => strStarts file f &&
        matchFile env includes excludes allowDotfiles true (joinP dir f)) with
  | [f0] =>
    if env.isdir (joinP dir f0) then .ok [joinP dir (f0 ++ ['/'])]
    else .ok [clean (joinP dir (f0 ++ [' ']))]
  | cands => fileFinalList clean dir allowDotfiles cands

/-- `File.candidates(context, text)` (the context is unused by the
source). -/
def fileCandidates (env : FileEnv) (includes excludes : List Str)
    (allowDotfiles : Bool) (text0 : Str) : Except Err (List Str) :=
  let homePair : Option (Str × Str) :=
    if strStarts ['~'] text0 then
      let sh := if text0.contains '/' then text0.takeWhile (fun c => c ≠ '/')
                else text0
      some (sh, expandU env sh)
    else none
  let text1 := if strStarts ['~'] text0 then expandU env text0 else text0
  let text := expandU env text1
  let dir0 := dirnameP text
  let dir := if dir0 = [] then ['.'] else dir0
  let file := basenameP text
  let cwd : Str := ['.', '/']
  let clean : Str → Str := fun f =>
    if strStarts cwd f then f.drop cwd.length
    else
      match homePair with
      | some (sh, eh) =>
        if sh ≠ [] ∧ strStarts eh f then sh ++ f.drop eh.length else f
      | none => f
  fileCandsCore env includes excludes allowDotfiles clean dir file

/-!
### Node operations (`valid`, `visible`, `follow`, `children`)

These methods recurse through the live grammar (an `Alias` resolves from
the root and may reach further aliases), so the source can recurse
unboundedly; every function below takes fuel and each call decrements it,
`outOfFuel` modelling a Python run that never returns.
-/

/-- The children of a located node, in `(group, order, name)` order; a
child's path extends the parent's by its name (`Node.path()` skips a
`None` name). -/
def sortChildrenL (loc : LNode) : List LNode :=
  (sortChildren loc.node.children).map
    (fun c =>
      ⟨loc.names ++ (match c.core.name with | some nm => [nm] | none => []), c⟩)

/-- `Node.valid`: `not self.traversals or context.traversed(self) < self.traversals`. -/
def nodeValidB (loc : LNode) (ctx : Context) : Bool :=
  loc.node.core.traversals == 0 ||
    ctx.traversedCount (pathStr loc.names) < loc.node.core.traversals

/-- `Variable.valid`: falls through to `Node.valid` unless
`traversals == 1` and the node name is already bound in `vars`, in which
case `len(context.vars.get(self.name, []))` decides — a `TypeError` when
the bound value is a scalar without `len`. -/
def variableValid (loc : LNode) (ctx : Context) : Except Err Bool :=
  if loc.node.core.traversals ≠ 1 then .ok (nodeValidB loc ctx)
  else
    match alistGet? ctx.vars loc.node.core.name with
    | none => .ok (nodeValidB loc ctx)
    | some v =>
      match pyLen v with
      | none => .error .typeError
      | some l =>
        if l < loc.node.core.traversals then .ok (nodeValidB loc ctx)
        else .ok false

mutual

/-- `Node.follow` dispatch: an `Alias` resolves its normalized target from
the root (falling back to a glob over the target directory's followed
children); a `Group` yields its children; every other node yields itself. -/
def followN (env : FileEnv) (root : GNode) :
    Nat → LNode → Context → Except Err (List LNode)
  | 0, _, _ => .error .outOfFuel
  | fuel + 1, loc, ctx =>
    match loc.node.kind with
    | .alias tgt =>
      match findFromRoot root (normpathP (joinP (pathStr loc.names) tgt)) with
      | .ok ln => .ok [ln]
      | .error _ =>
        findFromRoot root (dirnameP (normpathP (joinP (pathStr loc.names) tgt))) >>=
          fun start =>
        childrenN env root fuel start ctx true >>= fun kids =>
        .ok (kids.filter (fun k =>
          globMatch (basenameP (normpathP (joinP (pathStr loc.names) tgt)))
            (fmtName k.node.core.name)))
    | .group => .ok (sortChildrenL loc)
    | _ => .ok [loc]
termination_by structural fuel => fuel

/-- `valid` dispatch: `Group.valid` is `True`; `Alias.valid` holds iff some
followed target is valid; `Variable`/`File` use `Variable.valid`; all other
kinds use `Node.valid`. -/
def validN (env : FileEnv) (root : GNode) :
    Nat → LNode → Context → Except Err Bool
  | 0, _, _ => .error .outOfFuel
  | fuel + 1, loc, ctx =>
    match loc.node.kind with
    | .group => .ok true
    | .alias _ => do
      let tgts ← followN env root fuel loc ctx
      anyValidGo env root fuel tgts ctx
    | .var _ _ => variableValid loc ctx
    | .file _ _ _ _ _ => variableValid loc ctx
    | _ => .ok (nodeValidB loc ctx)
termination_by structural fuel => fuel

/-- `Alias.valid`'s loop: `for node in self.follow(context): if
node.valid(context): return True`. -/
def anyValidGo (env : FileEnv) (root : GNode) :
    Nat → List LNode → Context → Except Err Bool
  | _, [], _ => .ok false
  | 0, _ :: _, _ => .error .outOfFuel
  | fuel + 1, t :: ts, ctx => do
    let v ← validN env root fuel t ctx
    if v then pure true else anyValidGo env root fuel ts ctx
termination_by structural fuel => fuel

/-- `visible` dispatch: an instance-attribute override wins (the XML
loader can install one); `Alias.visible` holds iff some followed target is
visible; `Node.visible` is `True`. -/
def visibleN (env : FileEnv) (root : GNode) :
    Nat → LNode → Context → Except Err Bool
  | 0, _, _ => .error .outOfFuel
  | fuel + 1, loc, ctx =>
    match loc.node.core.visibleOverride with
    | some b => .ok b
    | none =>
      match loc.node.kind with
      | .alias _ => do
        let tgts ← followN env root fuel loc ctx
        anyVisibleGo env root fuel tgts ctx
      | _ => .ok true
termination_by structural fuel => fuel

/-- `Alias.visible`'s loop. -/
def anyVisibleGo (env : FileEnv) (root : GNode) :
    Nat → List LNode → Context → Except Err Bool
  | _, [], _ => .ok false
  | 0, _ :: _, _ => .error .outOfFuel
  | fuel + 1, t :: ts, ctx => do
    let v ← visibleN env root fuel t ctx
    if v then pure true else anyVisibleGo env root fuel ts ctx
termination_by structural fuel => fuel

/-- `Node.children(context, follow)`: iterate children in sorted order,
keep the valid ones, and with `follow=True` expand each through `follow()`
keeping the valid branches.  The context does not change while the parser
consumes this iteration, so the generator is evaluated eagerly. -/
def childrenN (env : FileEnv) (root : GNode) :
    Nat → LNode → Context → Bool → Except Err (List LNode)
  | 0, _, _, _ => .error .outOfFuel
  | fuel + 1, loc, ctx, ff => childrenGo env root fuel (sortChildrenL loc) ctx ff
termination_by structural fuel => fuel

/-- The loop body of `Node.children`. -/
def childrenGo (env : FileEnv) (root : GNode) :
    Nat → List LNode → Context → Bool → Except Err (List LNode)
  | _, [], _, _ => .ok []
  | 0, _ :: _, _, _ => .error .outOfFuel
  | fuel + 1, ch :: rest, ctx, ff =>
    validN env root fuel ch ctx >>= fun v =>
    (if v then
       if ff then
         followN env root fuel ch ctx >>= fun brs =>
         filterValid env root fuel brs ctx
       else pure [ch]
     else pure []) >>= fun here =>
    childrenGo env root fuel rest ctx ff >>= fun more =>
    pure (here ++ more)
termination_by structural fuel => fuel

/-- The `follow=True` branch filter: `for branch in child.follow(context):
if branch.valid(context): yield branch`. -/
def filterValid (env : FileEnv) (root : GNode) :
    Nat → List LNode → Context → Except Err (List LNode)
  | _, [], _ => .ok []
  | 0, _ :: _, _ => .error .outOfFuel
  | fuel + 1, b :: bs, ctx => do
    let v ← validN env root fuel b ctx
    let more ← filterValid env root fuel bs ctx
    if v then pure (b :: more) else pure more
termination_by structural fuel => fuel

end

/-!
### Candidates, match, selection, terminal, execute, driver
-/

/-- `Node.candidates(context, text)` over the node's help rows:
`if key[0] != '<' and key.startswith(text): yield key + ' '`.
`key[0]` is a `TypeError` on a `None` key and an `IndexError` on an
empty key. -/
def candidatesRows : List (Option Str × Str) → Str → Except Err (List Str)
  | [], _ => .ok []
  | (k?, _) :: rest, text =>
    match k? with
    | none => .error .typeError
    | some [] => .error .indexError
    | some (c :: ks) => do
      let more ← candidatesRows rest text
      if c ≠ '<' ∧ strStarts text (c :: ks) then
        pure (((c :: ks) ++ [' ']) :: more)
      else pure more

/-- Lazy membership in the `candidates` generator, as evaluated by
`match.group() + ' ' not in self.candidates(...)`: stops at the first
hit, so keys after the hit are never inspected. -/
def candidatesContainRows : List (Option Str × Str) → Str → Str → Except Err Bool
  | [], _, _ => .ok false
  | (k?, _) :: rest, text, target =>
    match k? with
    | none => .error .typeError
    | some [] => .error .indexError
    | some (c :: ks) =>
      if c ≠ '<' ∧ strStarts text (c :: ks) then
        if ((c :: ks) ++ [' ']) == target then .ok true
        else candidatesContainRows rest text target
      else candidatesContainRows rest text target

/-- `candidates` dispatch: `File.candidates` overrides the help-row
default. -/
def candidatesN (env : FileEnv) (loc : LNode) (text : Str) :
    Except Err (List Str) :=
  match loc.node.kind with
  | .file inc exc adot _ _ => fileCandidates env inc exc adot text
  | _ => candidatesRows loc.node.helpRows text

/-- Membership of `target` in `candidates(ctx, text)` (`File.candidates`
returns a list, so it is evaluated in full; the default is a generator and
is consumed lazily). -/
def candidatesContainN (env : FileEnv) (loc : LNode) (text target : Str) :
    Except Err Bool :=
  match loc.node.kind with
  | .file inc exc adot _ _ =>
    (fileCandidates env inc exc adot text).map (fun l => l.contains target)
  | _ => candidatesContainRows loc.node.helpRows text target

/-- `Node.match(context)`: invalid nodes do not match; the pattern must
match at the cursor and the separator immediately after it; with
`match_candidates`, the matched token plus `' '` must appear among the
candidates; `File.match` additionally requires `match_file(group,
allow_directories)`. -/
def matchN (env : FileEnv) (root : GNode) (fuel : Nat) (loc : LNode)
    (ctx : Context) : Except Err (Option Str) :=
  match fuel with
  | 0 => .error .outOfFuel
  | fuel + 1 =>
    validN env root fuel loc ctx >>= fun v =>
    if !v then pure none
    else
      match loc.node.core.pat ctx.remaining with
      | none => pure none
      | some len =>
        match loc.node.core.sep (ctx.command.drop (ctx.cursor + len)) with
        | none => pure none
        | some _ =>
          (if loc.node.core.matchCandidates then
             candidatesContainN env loc (ctx.remaining.take len)
               (ctx.remaining.take len ++ [' '])
           else pure true) >>= fun inCands =>
          if !inCands then pure none
          else
            match loc.node.kind with
            | .file inc exc adot adir _ =>
              if matchFile env inc exc adot adir (ctx.remaining.take len) then
                pure (some (ctx.remaining.take len))
              else pure none
            | _ => pure (some (ctx.remaining.take len))

/-- `Node.advance(context)`: advance the cursor by the length of the
`_full_match` (`(?:pattern)(?:separator)`) at the cursor, modelled as the
pattern match followed by the separator match (for the repository's
patterns the two character classes are disjoint, so the combined regex
matches exactly this way); `None` would be an `AttributeError` on
`match.group()`. -/
def advanceN (loc : LNode) (ctx : Context) : Except Err Context :=
  match loc.node.core.pat ctx.remaining with
  | none => .error .attributeError
  | some p =>
    match loc.node.core.sep (ctx.command.drop (ctx.cursor + p)) with
    | none => .error .attributeError
    | some q => .ok (ctx.advance (p + q))

/-- `Variable.var_name`: `self._var_name` if provided, else the node
name. -/
def varKey (vno : Option Str) (loc : LNode) : Option Str :=
  match vno with
  | some v => some v
  | none => loc.node.core.name

/-- `Variable.selected`: parse the match, store it in `vars` (a scalar for
`traversals == 1`, otherwise `setdefault(var_name, []).append(value)` —
an `AttributeError` when a non-list is already bound), then fall through
to `Node.selected` which increments the traversal counter. -/
def variableSelected (vp : VParse) (vno : Option Str) (loc : LNode)
    (m : Option Str) (ctx : Context) : Except Err Context :=
  match m with
  | none => .error .attributeError
  | some txt =>
    if loc.node.core.traversals = 0 ∨ loc.node.core.traversals > 1 then
      match alistGet? ctx.vars (varKey vno loc) with
      | none =>
        .ok (({ ctx with vars := alistSet ctx.vars (varKey vno loc) (.vlist [vparse vp txt]) }).selectedCtx (pathStr loc.names))
      | some (.vlist l) =>
        .ok (({ ctx with vars := alistSet ctx.vars (varKey vno loc) (.vlist (l ++ [vparse vp txt])) }).selectedCtx (pathStr loc.names))
      | some _ => .error .attributeError
    else
      .ok (({ ctx with vars := alistSet ctx.vars (varKey vno loc) (vparse vp txt) }).selectedCtx (pathStr loc.names))

/-- `selected` dispatch: `Action.selected` is a pass (actions are not
traversed); `Alias.selected` raises; `Variable`/`File` parse and record;
every other node informs the context it was traversed. -/
def selectedN (loc : LNode) (m : Option Str) (ctx : Context) :
    Except Err Context :=
  match loc.node.kind with
  | .alias _ => .error .aliasSelected
  | .action _ _ => .ok ctx
  | .var vp vno => variableSelected vp vno loc m ctx
  | .file _ _ _ _ vno => variableSelected .generic vno loc m ctx
  | _ => .ok (ctx.selectedCtx (pathStr loc.names))

/-- `terminal` dispatch: `Grammar.terminal` is a null-op (Python returns
`None`); `Action.terminal` invokes the callback with the captured
variables (and the user context when `with_user_context`, falling back to
the parser's flag); `Node.terminal` raises `UnexpectedEOL(context)`. -/
def terminalN (parserWUC : Bool) (loc : LNode) (ctx : Context) :
    Except Err Value :=
  match loc.node.kind with
  | .root => .ok .vnone
  | .action cb wuc =>
    if wuc.getD parserWUC then .ok (cb (some ctx.userContext) ctx.vars)
    else .ok (cb none ctx.vars)
  | _ => .error (.unexpectedEOL ctx)

/-- `Context.execute()`: raise `InvalidToken(self)` if the remaining text
has a non-whitespace character, else run `terminal` on the last trail
node (`trail[-1]` on an empty trail is an `IndexError`). -/
def executeN (parserWUC : Bool) (ctx : Context) : Except Err Value :=
  if pyStrip ctx.remaining ≠ [] then .error (.invalidToken ctx)
  else
    match ctx.trail.getLast? with
    | some (ln, _) => terminalN parserWUC ln ctx
    | none => .error .indexError

mutual

/-- The inner `parse(node, match)` of `Parser.parse`: record the trail
entry, advance past a real match, run `selected`, then scan
`node.next(context)` for the first valid child whose `match` succeeds and
recurse on it. -/
def parseRec (env : FileEnv) (root : GNode) :
    Nat → LNode → Option Str → Context → Except Err Context
  | 0, _, _, _ => .error .outOfFuel
  | fuel + 1, loc, m, ctx =>
    (match m with
     | some _ => advanceN loc { ctx with trail := ctx.trail ++ [(loc, m)] }
     | none => pure { ctx with trail := ctx.trail ++ [(loc, m)] }) >>= fun ctx2 =>
    selectedN loc m ctx2 >>= fun ctx3 =>
    childrenN env root fuel loc ctx3 true >>= fun subs =>
    tryChildren env root fuel subs ctx3
termination_by structural fuel => fuel

/-- The child-selection loop.  The empty case is the `for`/`else` branch,
whose `return` ends the call; the `raise InvalidToken(context)` written
after the loop in the source is on no control path, because the loop body
either returns from the recursive call or falls through to that
unconditional `return`. -/
def tryChildren (env : FileEnv) (root : GNode) :
    Nat → List LNode → Context → Except Err Context
  | _, [], ctx => .ok ctx
  | 0, _ :: _, _ => .error .outOfFuel
  | fuel + 1, sub :: rest, ctx =>
    validN env root fuel sub ctx >>= fun v =>
    if v then
      matchN env root (fuel + 1) sub ctx >>= fun m =>
      match m with
      | some txt => parseRec env root fuel sub (some txt) ctx
      | none => tryChildren env root fuel rest ctx
    else tryChildren env root fuel rest ctx
termination_by structural fuel => fuel

end

/-- `Parser.parse(command)`: drive the inner `parse` from the grammar
root with a fresh context and a null match, returning the context. -/
def Parser.parse (env : FileEnv) (root : GNode) (fuel : Nat) (command : Str) :
    Except Err Context :=
  parseRec env root fuel ⟨[], root⟩ none { command := command }

/-- `Parser.execute(command)`: parse, then `Context.execute()`. -/
def Parser.executeCmd (env : FileEnv) (root : GNode) (fuel : Nat)
    (parserWUC : Bool) (command : Str) : Except Err Value :=
  (Parser.parse env root fuel command).bind (executeN parserWUC)

/-!
### The help enumerator (`cly.parser.HelpParser`)
-/

/-- A collected help row `(group, order, key, text)`. -/
abbrev Row4 := Int × Int × Option Str × Str

/-- Python tuple `≤` on a `(key, help)` pair. -/
def pairLe (a b : Option Str × Str) : Bool :=
  if a.1 == b.1 then lexLe a.2 b.2 else optNameLe a.1 b.1

/-- Python tuple `≤` on `(group, order, key, text)` rows. -/
def row4Le (a b : Row4) : Bool :=
  if a.1 ≠ b.1 then decide (a.1 < b.1)
  else if a.2.1 ≠ b.2.1 then decide (a.2.1 < b.2.1)
  else if a.2.2.1 ≠ b.2.2.1 then optNameLe a.2.2.1 b.2.2.1
  else lexLe a.2.2.2 b.2.2.2

/-- The collection loop of `HelpParser.__init__`: for each visible child,
append its (locally sorted) help rows tagged with the child's group and
order. -/
def helpCollectGo (env : FileEnv) (root : GNode) :
    Nat → List LNode → Context → Except Err (List Row4)
  | _, [], _ => .ok []
  | 0, _ :: _, _ => .error .outOfFuel
  | fuel + 1, ch :: rest, ctx => do
    let vis ← visibleN env root fuel ch ctx
    let here :=
      if vis then
        ((ch.node.helpRows).mergeSort pairLe).map
          (fun r => (ch.node.core.group, ch.node.core.order, r.1, r.2))
      else []
    let more ← helpCollectGo env root fuel rest ctx
    pure (here ++ more)

/-- `HelpParser.__init__`: collect rows from the visible followed
children of `node`, then `self.help.sort()`. -/
def helpCollect (env : FileEnv) (root : GNode) (fuel : Nat) (loc : LNode)
    (ctx : Context) : Except Err (List Row4) :=
  match fuel with
  | 0 => .error .outOfFuel
  | fuel + 1 => do
    let kids ← childrenN env root fuel loc ctx true
    let rows ← helpCollectGo env root fuel kids ctx
    pure (rows.mergeSort row4Le)

/-- `HelpParser.__iter__`: yield `(help[0],) + help[2:]`, i.e. the
`(group, key, text)` projection of each collected row, in collected
order. -/
def helpIter (rows : List Row4) : List (Int × Option Str × Str) :=
  rows.map (fun r => (r.1, r.2.2.1, r.2.2.2))

/-!
### Well-formed grammars

The construction API stores children in a per-node dict (so sibling names
are distinct strings) and path components contain no `/`.  `wfB` checks
this; the traversal-bound theorem assumes it because the counters are
keyed by path strings.
-/

/-- A legal child name: present, nonempty, no slash. -/
def nameOkB : Option Str → Bool
  | some nm => nm ≠ [] && !nm.contains '/'
  | none => false

/-- Distinct sibling names (dict keys). -/
def nodupNames : List (Option Str) → Bool
  | [] => true
  | x :: xs => !(xs.contains x) && nodupNames xs

/-- Well-formedness of a grammar subtree, to depth `d` (a finite tree is
well formed when this holds for some `d`, necessarily at least its
height). -/
def wfD : Nat → GNode → Bool
  | 0, _ => false
  | d + 1, n =>
    (n.children.all fun c => nameOkB c.core.name) &&
      nodupNames (n.children.map fun c => c.core.name) &&
      (n.children.all fun c => wfD d c)

/-!
### Concrete grammars and environments used by the claims
-/

/-- The default separator source string `\s+|\s*$`. -/
def sepDef : Str := "\\s+|\\s*$".toList

/-- A filesystem environment with an empty filesystem. -/
def envT : FileEnv := ⟨fun _ => [], fun _ => false, fun s => s⟩

/-- A `Grammar` root (`pattern=''`, name `None`, help `'<root>'`). -/
def grammarRoot (children : List GNode) : GNode :=
  .mk { name := none, patternStr := some [], pat := emptyRun,
        sepStr := sepDef, sep := sepRun, helpP := .lazy "<root>".toList }
    .root children

/-- A plain `Node` whose pattern is its literal name (the naming rule
installs the name as pattern when none is given). -/
def plainNode (nm : String) (help : String) (children : List GNode) : GNode :=
  .mk { name := some nm.toList, patternStr := some nm.toList,
        pat := litRun nm.toList, sepStr := sepDef, sep := sepRun,
        helpP := .lazy help.toList } .plain children

/-- An `Integer` variable node (`pattern=r'\d+'`). -/
def integerNode (nm : String) : GNode :=
  .mk { name := some nm.toList, patternStr := some "\\d+".toList,
        pat := digitsRun, sepStr := sepDef, sep := sepRun,
        helpP := .lazy "An integer".toList } (.var .integer none) []

/-- A `Boolean` variable node. -/
def booleanNode (nm : String) : GNode :=
  .mk { name := some nm.toList,
        patternStr :=
          some "(?i)(true|yes|aye|enable|enabled|on|1|false|no|disable|disabled|off|0)".toList,
        pat := booleanRun, sepStr := sepDef, sep := sepRun,
        helpP := .lazy "A boolean".toList } (.var .boolean none) []

/-- An `Alias` node (`pattern=''`, help `'<alias for "%s">'`). -/
def aliasNode (nm : String) (target : String) : GNode :=
  .mk { name := some nm.toList, patternStr := some [], pat := emptyRun,
        sepStr := sepDef, sep := sepRun,
        helpP := .lazy ("<alias for \"" ++ target ++ "\">").toList }
    (.alias target.toList) []

/-- A `Group` node (`pattern=''`; its help string is `object.__repr__`). -/
def groupNode (nm : String) (children : List GNode) : GNode :=
  .mk { name := some nm.toList, patternStr := some [], pat := emptyRun,
        sepStr := sepDef, sep := sepRun,
        helpP := .lazy "<Group instance>".toList } .group children

/-- An `Action` node (`pattern='$'`, `group=9999`, help rows
`(('<eol>', doc),)`). -/
def actionNode (nm : String) (doc : String)
    (cb : Option Value → List (Option Str × Value) → Value) : GNode :=
  .mk { name := some nm.toList, patternStr := some "$".toList,
        pat := dollarRun, sepStr := sepDef, sep := sepRun, group := 9999,
        helpP := .explicit [(some "<eol>".toList, doc.toList)] }
    (.action cb none) []

/-- Replace a node's `group` attribute. -/
def withGroup (g : Int) : GNode → GNode
  | .mk c k cs => .mk { c with group := g } k cs

/-- `Grammar(n=Integer('An integer'))` — the grammar of the
`Integer` scenario. -/
def gInteger : GNode := grammarRoot [integerNode "n"]

/-- `Grammar(b=Boolean('A boolean'))` — the grammar of the Boolean
scenario. -/
def gBoolean : GNode := grammarRoot [booleanNode "b"]

/-- `Grammar(a1=Alias('/g'), g=Group()(x=Node(...)(a2=Alias('/g'))))` —
a grammar whose `Group` is the target of two aliases. -/
def gGroupCx : GNode :=
  grammarRoot
    [aliasNode "a1" "/g",
     groupNode "g" [plainNode "x" "An x" [aliasNode "a2" "/g"]]]

/-- `Grammar(quit=Node('Quit'))`. -/
def gQuit : GNode := grammarRoot [plainNode "quit" "Quit" []]

/-- `Grammar(one=Node('1'), two=Node('2', group=2))` — the help-ordering
scenario. -/
def gHelp : GNode :=
  grammarRoot [plainNode "one" "1" [], withGroup 2 (plainNode "two" "2" [])]

/-- A filesystem with a single directory `abcdir` in the current
directory. -/
def envF : FileEnv :=
  ⟨fun d => if d = ['.'] then ["abcdir".toList] else [],
   fun p => p == "./abcdir".toList, fun s => s⟩

/-!
### Statement-level definitions
-/

/-- Discriminator for `Group` nodes. -/
def isGroupK : NKind → Bool
  | .group => true
  | _ => false

/-- A located node is consistent with the grammar when `find` along its
path components reaches exactly its node. -/
def consistentL (root : GNode) (loc : LNode) : Prop :=
  walkFind root loc.names = some loc.node

/-- The traversal-bound invariant: every non-`Group` node of the grammar
with a positive `traversals` limit has been counted at most `traversals`
times. -/
def travBound (root : GNode) (c : Context) : Prop :=
  ∀ ns n, walkFind root ns = some n → isGroupK n.kind = false →
    0 < n.core.traversals →
    c.traversedCount (pathStr ns) ≤ n.core.traversals

/-- A computation that cannot raise `InvalidToken`. -/
def noInvalidToken {α : Type} (x : Except Err α) : Prop :=
  ∀ c, x ≠ .error (.invalidToken c)

/-- The rows a child contributes to the help listing: its locally sorted
help rows tagged with its `(group, order)`. -/
def taggedHelp (ch : LNode) : List Row4 :=
  ((ch.node.helpRows).mergeSort pairLe).map
    (fun r => (ch.node.core.group, ch.node.core.order, r.1, r.2))

/-- The visibility filter of `HelpParser.__init__`, as a list
computation. -/
def visibleFilterM (env : FileEnv) (root : GNode) :
    Nat → List LNode → Context → Except Err (List LNode)
  | _, [], _ => .ok []
  | 0, _ :: _, _ => .error .outOfFuel
  | fuel + 1, ch :: rest, ctx => do
    let v ← visibleN env root fuel ch ctx
    let more ← visibleFilterM env root fuel rest ctx
    pure (if v then ch :: more else more)

/-- Discriminator for `Alias` nodes. -/
def isAliasK : NKind → Bool
  | .alias _ => true
  | _ => false

/-- Discriminator for `File` nodes. -/
def isFileK : NKind → Bool
  | .file _ _ _ _ _ => true
  | _ => false

/-- A `File` node with default configuration, as used by the `File`
candidates counterexample. -/
def fileNodeCx : GNode :=
  .mk { name := some "f".toList, patternStr := some "\\S+".toList,
        pat := nonspaceRun, sepStr := sepDef, sep := sepRun,
        helpP := .lazy "A file".toList }
    (.file ["*".toList] [] false false none) []

/-!
## Theorems

First the supporting lemmas, then one theorem (plus witness or
counterexample) per claim.  `List.mergeSort` is sealed in core; it is
unsealed here so that concrete runs of the interpreter (which sorts
children by `(group, order, name)`) reduce definitionally.
-/

unseal List.merge List.mergeSort

theorem exceptBind_ok {α β : Type} {a : Except Err α} {f : α → Except Err β}
    {c : β} (h : a >>= f = .ok c) : ∃ v, a = .ok v ∧ f v = .ok c := by
  cases a with
  | ok v => exact ⟨v, rfl, h⟩
  | error e => simp [Bind.bind, Except.bind] at h

theorem strStarts_append (p s t : Str) (h : strStarts p s = true) :
    strStarts p (s ++ t) = true := by
  induction p generalizing s with
  | nil => rfl
  | cons c cs ih =>
    cases s with
    | nil => simp [strStarts] at h
    | cons d ds =>
      simp only [strStarts, List.cons_append, Bool.and_eq_true] at h ⊢
      exact ⟨h.1, ih ds h.2⟩

theorem find?_alist_map {κ α : Type} [BEq κ] [LawfulBEq κ]
    (l : List (κ × α)) (k k2 : κ) (v : α) :
    List.find? (fun q => q.1 == k2)
        (l.map (fun p => if p.1 == k then (p.1, v) else p))
      = (List.find? (fun q => q.1 == k2) l).map
          (fun p => if p.1 == k then (p.1, v) else p) := by
  rw [List.find?_map]
  have hfn : ((fun q : κ × α => q.1 == k2) ∘ fun p => if p.1 == k then (p.1, v) else p)
      = fun q : κ × α => q.1 == k2 := by
    funext p
    by_cases hp : p.1 == k <;> simp [Function.comp, hp]
  rw [hfn]

theorem alistGet?_set_self {κ α : Type} [BEq κ] [LawfulBEq κ]
    (l : List (κ × α)) (k : κ) (v : α) :
    alistGet? (alistSet l k v) k = some v := by
  unfold alistSet
  by_cases hs : (List.find? (fun q => q.1 == k) l).isSome
  · simp only [hs, if_true, alistGet?, find?_alist_map]
    obtain ⟨p, hp⟩ := Option.isSome_iff_exists.mp hs
    have hk := List.find?_some hp
    simp only [hp, Option.map_some]
    simp at hk
    simp [hk]
  · simp only [hs, if_false, alistGet?, List.find?_append]
    have : List.find? (fun q => q.1 == k) l = none := by
      cases h : List.find? (fun q => q.1 == k) l with
      | none => rfl
      | some p => rw [h] at hs; simp at hs
    simp [this, List.find?]

theorem alistGet?_set_other {κ α : Type} [BEq κ] [LawfulBEq κ]
    (l : List (κ × α)) (k k2 : κ) (v : α) (hne : k2 ≠ k) :
    alistGet? (alistSet l k v) k2 = alistGet? l k2 := by
  unfold alistSet
  by_cases hs : (List.find? (fun q => q.1 == k) l).isSome
  · simp only [hs, if_true, alistGet?, find?_alist_map]
    cases h : List.find? (fun q => q.1 == k2) l with
    | none => simp
    | some p =>
      have hk2 := List.find?_some h
      simp at hk2
      have : ¬ (p.1 == k) = true := by
        simp [hk2]
        exact hne
      simp [this]
  · rw [if_neg hs]
    simp only [alistGet?, List.find?_append]
    cases h : List.find? (fun q : κ × α => q.1 == k2) l with
    | none =>
      have hkk : (k == k2) = false := beq_eq_false_iff_ne.mpr (fun he => hne he.symm)
      simp [List.find?, hkk]
    | some p => rfl

theorem dropWhile_all_iff (p : Char → Bool) (l : Str) :
    (∀ x ∈ l.dropWhile p, p x = true) ↔ ∀ x ∈ l, p x = true := by
  induction l with
  | nil => simp
  | cons c cs ih =>
    by_cases h : p c
    · rw [List.dropWhile_cons, if_pos h]
      simp [h, ih]
    · rw [List.dropWhile_cons, if_neg h]

theorem pyStrip_eq_nil_iff (s : Str) :
    pyStrip s = [] ↔ ∀ x ∈ s, pyIsSpace x = true := by
  unfold pyStrip
  rw [List.reverse_eq_nil_iff, List.dropWhile_eq_nil_iff]
  constructor
  · intro h x hx
    exact (dropWhile_all_iff pyIsSpace s).mp
      (fun y hy => h y (List.mem_reverse.mpr hy)) x hx
  · intro h x hx
    exact h x ((List.dropWhile_sublist pyIsSpace (l := s)).mem (List.mem_reverse.mp hx))

theorem strip_ne_nil_iff (s : Str) :
    pyStrip s ≠ [] ↔ s.any (fun c => ! pyIsSpace c) = true := by
  rw [Ne, pyStrip_eq_nil_iff, List.any_eq_true]
  constructor
  · intro h
    by_contra hno
    refine h (fun x hx => ?_)
    by_contra hpx
    exact hno ⟨x, hx, by simpa using hpx⟩
  · rintro ⟨x, hx, hpx⟩ hall
    have := hall x hx
    simp [this] at hpx

/-- C3: `Context.execute()` raises `InvalidToken` exactly when the
remaining input has a non-whitespace character (the raised error carries
the context itself, unchanged — the embedding is pure, so the state is
whatever `ctx` was); otherwise it invokes `terminal` on the last trail
node and returns that result. -/
theorem C3_execute_invalid_token (pwuc : Bool) (ctx : Context) :
    (ctx.remaining.any (fun c => ! pyIsSpace c) = true →
        executeN pwuc ctx = .error (.invalidToken ctx)) ∧
    (ctx.remaining.any (fun c => ! pyIsSpace c) = false →
        ∀ tr ln m, ctx.trail = tr ++ [(ln, m)] →
          executeN pwuc ctx = terminalN pwuc ln ctx) ∧
    (∀ c0, executeN pwuc ctx = .error (.invalidToken c0) →
        ctx.remaining.any (fun c => ! pyIsSpace c) = true ∧ c0 = ctx) := by
  refine ⟨?_, ?_, ?_⟩
  · intro h
    unfold executeN
    rw [if_pos ((strip_ne_nil_iff ctx.remaining).mpr h)]
  · intro h tr ln m htr
    have hnil : ¬ pyStrip ctx.remaining ≠ [] := by
      intro hne
      rw [(strip_ne_nil_iff ctx.remaining).mp hne] at h
      cases h
    unfold executeN
    rw [if_neg hnil, htr, List.getLast?_concat]
  · intro c0 h
    unfold executeN at h
    split at h
    · rename_i hs
      refine ⟨(strip_ne_nil_iff ctx.remaining).mp hs, ?_⟩
      injection h with h2
      injection h2 with h3
      exact h3.symm
    · exfalso
      split at h
      · unfold terminalN at h
        split at h <;> (try split at h) <;> simp at h
      · simp at h

/-- Witness for C3: at a context with remaining text `"x"` execute raises
`InvalidToken`; at a context with no remaining text and the root grammar
on the trail it runs the root's terminal. -/
theorem C3_witness :
    executeN false { command := "x".toList }
      = .error (.invalidToken { command := "x".toList }) ∧
    executeN false { command := [], trail := [(⟨[], gQuit⟩, none)] }
      = terminalN false ⟨[], gQuit⟩ { command := [], trail := [(⟨[], gQuit⟩, none)] } :=
  ⟨(C3_execute_invalid_token false _).1 (by decide),
   (C3_execute_invalid_token false _).2.1 (by decide) [] ⟨[], gQuit⟩ none rfl⟩

/-- C4: `terminal` is policy-dispatched: a plain `Node` raises
`UnexpectedEOL`, the `Grammar` root is a null-op returning `None` (so an
empty command executes successfully, shown on `gQuit`), and an `Action`
invokes the user callback on the context's captured variables (with the
user context exactly when `with_user_context`, defaulted to the parser's
flag, holds). -/
theorem C4_terminal_dispatch :
    (∀ (loc : LNode) (ctx : Context) (pwuc : Bool),
        loc.node.kind = .plain →
        terminalN pwuc loc ctx = .error (.unexpectedEOL ctx)) ∧
    (∀ (loc : LNode) (ctx : Context) (pwuc : Bool),
        loc.node.kind = .root → terminalN pwuc loc ctx = .ok .vnone) ∧
    (∀ (loc : LNode) (ctx : Context) (pwuc : Bool)
        (cb : Option Value → List (Option Str × Value) → Value)
        (wuc : Option Bool),
        loc.node.kind = .action cb wuc →
        terminalN pwuc loc ctx =
          .ok (cb (if wuc.getD pwuc then some ctx.userContext else none) ctx.vars)) ∧
    Parser.executeCmd envT gQuit 30 false [] = .ok .vnone := by
  refine ⟨?_, ?_, ?_, rfl⟩
  · intro loc ctx pwuc h
    unfold terminalN
    rw [h]
  · intro loc ctx pwuc h
    unfold terminalN
    rw [h]
  · intro loc ctx pwuc cb wuc h
    unfold terminalN
    rw [h]
    by_cases hw : wuc.getD pwuc <;> simp [hw]

/-- Witness for C4: each dispatch case at a concrete node and context. -/
theorem C4_witness :
    terminalN false ⟨["quit".toList], plainNode "quit" "Quit" []⟩ { command := [] }
      = .error (.unexpectedEOL { command := [] }) ∧
    terminalN false ⟨[], gQuit⟩ { command := [] } = .ok .vnone ∧
    terminalN false ⟨["act".toList], actionNode "act" "Do" (fun _ _ => .vint 7)⟩
        { command := [] }
      = .ok ((fun (_ : Option Value) (_ : List (Option Str × Value)) => Value.vint 7)
          (if (none : Option Bool).getD false then
            some (Context.userContext { command := [] }) else none)
          (Context.vars { command := [] })) :=
  ⟨C4_terminal_dispatch.1 _ _ false rfl,
   C4_terminal_dispatch.2.1 _ _ false rfl,
   C4_terminal_dispatch.2.2.1 _ _ false
     (fun _ _ => Value.vint 7) none rfl⟩

/-- C6 counterexample: with `Grammar(n=Integer(...))` and input
`"123.45"`, the parse does not consume `"123"` — `Integer.match` fails
because the separator `\s+|\s*$` does not match at the `'.'` — so
`remaining` is the whole input, not `".45"`, and `vars` is empty (the
source's own doctest shows `parse('123.45').remaining == '123.45'`). -/
theorem C6_counterexample :
    ((Parser.parse envT gInteger 30 ("123.45".toList)).map
        (fun c => (c.remaining, c.vars)))
      = .ok ("123.45".toList, ([] : List (Option Str × Value))) ∧
    "123.45".toList ≠ ".45".toList :=
  ⟨rfl, by decide⟩

/-- C6 as amended: parsing `"123.45"` against `Grammar(n=Integer(...))`
consumes nothing (`parsed = ""`, `remaining = "123.45"`, `vars = {}`),
because `Integer`'s token match is rejected by the separator check. -/
theorem C6_integer_no_consume :
    ((Parser.parse envT gInteger 30 ("123.45".toList)).map
        (fun c => (c.parsed, c.remaining, c.vars)))
      = .ok (([] : Str), "123.45".toList, ([] : List (Option Str × Value))) ∧
    matchN envT gInteger 30 ⟨["n".toList], integerNode "n"⟩
        { command := "123.45".toList } = .ok none :=
  ⟨rfl, rfl⟩

/-- C7: the `Boolean` pattern matches `"YeS"` case-insensitively (the
`yes` alternative), but `Boolean.parse` tests the literally matched text
against `TRUE` with a case-sensitive `in`, so the parse records
`vars == \x7b"b": False\x7d` — not `True` as the claim (and the evident
intent of the case-insensitive pattern) requires. -/
theorem C7_boolean_case_bug :
    ((Parser.parse envT gBoolean 30 ("YeS".toList)).map
        (fun c => (c.remaining, alistGet? c.vars (some "b".toList))))
      = .ok (([] : Str), some (Value.vbool false)) ∧
    ciStarts "yes".toList "YeS".toList = true ∧
    pyTRUE.contains ("YeS".toList) = false :=
  ⟨rfl, by decide, by decide⟩

/-- C9: `Action.selected` is a pass for every context and match — the
returned context is the incoming one, so no traversal counter moves — and
`Alias.selected` raises for every context and match. -/
theorem C9_selected_dispatch :
    (∀ (loc : LNode) (m : Option Str) (ctx : Context)
        (cb : Option Value → List (Option Str × Value) → Value)
        (wuc : Option Bool),
        loc.node.kind = .action cb wuc → selectedN loc m ctx = .ok ctx) ∧
    (∀ (loc : LNode) (m : Option Str) (ctx : Context) (tgt : Str),
        loc.node.kind = .alias tgt →
        selectedN loc m ctx = .error .aliasSelected) := by
  constructor
  · intro loc m ctx cb wuc h
    unfold selectedN
    rw [h]
  · intro loc m ctx tgt h
    unfold selectedN
    rw [h]

/-- Witness for C9: a concrete `Action` and a concrete `Alias`. -/
theorem C9_witness :
    selectedN ⟨["act".toList], actionNode "act" "Do" (fun _ _ => .vint 7)⟩ none
        { command := [] } = .ok { command := [] } ∧
    selectedN ⟨["a1".toList], aliasNode "a1" "/g"⟩ none { command := [] }
      = .error .aliasSelected :=
  ⟨C9_selected_dispatch.1 _ none _ (fun _ _ => Value.vint 7) none rfl,
   C9_selected_dispatch.2 _ none _ ("/g".toList) rfl⟩


/-- C5 as amended: the default `Node.candidates` yields only strings that
start with `text`, never beginning with `'<'`, each being a help key plus
one trailing space; and for every non-`File` node `candidates` is exactly
this help-row computation.  (`File.candidates` overrides it and violates
all three properties — see the counterexample.) -/
theorem C5_candidates_amended :
    (∀ (rows : List (Option Str × Str)) (text : Str) (res : List Str),
        candidatesRows rows text = .ok res →
        ∀ s ∈ res, strStarts text s = true ∧ s.head? ≠ some '<' ∧
          ∃ k h, (some k, h) ∈ rows ∧ s = k ++ [' ']) ∧
    (∀ (env : FileEnv) (loc : LNode) (text : Str),
        isFileK loc.node.kind = false →
        candidatesN env loc text = candidatesRows loc.node.helpRows text) := by
  constructor
  · intro rows
    induction rows with
    | nil =>
      intro text res h s hs
      cases h
      simp at hs
    | cons row rest ih =>
      intro text res h s hs
      obtain ⟨k?, ktext⟩ := row
      match hk : k? with
      | none => simp [candidatesRows] at h
      | some [] => simp [candidatesRows] at h
      | some (c :: ks) =>
        unfold candidatesRows at h
        obtain ⟨more, hrest, hif⟩ := exceptBind_ok h
        by_cases hg : c ≠ '<' ∧ strStarts text (c :: ks) = true
        · rw [if_pos hg] at hif
          cases hif
          rcases List.mem_cons.mp hs with hcand | hmore
          · subst hcand
            refine ⟨strStarts_append _ _ _ hg.2, ?_, c :: ks, ktext, ?_, rfl⟩
            · simp
              exact hg.1
            · exact List.mem_cons_self _ _
          · obtain ⟨h1, h2, k, ht, hmem, he⟩ := ih text more hrest s hmore
            exact ⟨h1, h2, k, ht, List.mem_cons_of_mem _ hmem, he⟩
        · rw [if_neg hg] at hif
          cases hif
          obtain ⟨h1, h2, k, ht, hmem, he⟩ := ih text res hrest s hs
          exact ⟨h1, h2, k, ht, List.mem_cons_of_mem _ hmem, he⟩
  · intro env loc text h
    unfold candidatesN
    cases hk : loc.node.kind <;> first
      | rfl
      | (rw [hk] at h; cases h)

/-- C5 counterexample: `File.candidates` with a lone directory candidate
`abcdir` in the current directory returns `"./abcdir/"` for the prefix
`"abc"` — a string that does not start with the prefix, is no help key,
and carries no trailing space. -/
theorem C5_counterexample :
    candidatesN envF ⟨["f".toList], fileNodeCx⟩ ("abc".toList)
      = .ok ["./abcdir/".toList] ∧
    strStarts ("abc".toList) ("./abcdir/".toList) = false ∧
    ("./abcdir/".toList).getLast? ≠ some ' ' :=
  ⟨rfl, by decide, by decide⟩

/-- Witness for C5: the default candidates of a node with help row
`('one', '1')` at prefix `"o"`. -/
theorem C5_witness :
    strStarts ("o".toList) ("one ".toList) = true ∧
    ("one ".toList).head? ≠ some '<' ∧
    ∃ k h, (some k, h) ∈ [(some "one".toList, "1".toList)] ∧
      "one ".toList = k ++ [' '] :=
  C5_candidates_amended.1 [(some "one".toList, "1".toList)] ("o".toList)
    ["one ".toList] rfl ("one ".toList) (List.mem_singleton.mpr rfl)


theorem bindE_ok {α β : Type} (v : α) (f : α → Except Err β) :
    (Except.ok v >>= f) = f v := rfl

theorem bindE_err {α β : Type} (e : Err) (f : α → Except Err β) :
    ((Except.error e : Except Err α) >>= f) = Except.error e := rfl

theorem lexLe_total : ∀ a b : Str, lexLe a b = true ∨ lexLe b a = true
  | [], _ => Or.inl rfl
  | _ :: _, [] => Or.inr rfl
  | c :: s, d :: t => by
    by_cases h : c = d
    · subst h
      rcases lexLe_total s t with h1 | h1
      · left; simp [lexLe, h1]
      · right; simp [lexLe, h1]
    · rcases lt_trichotomy c d with h1 | h1 | h1
      · left; simp [lexLe, h, h1]
      · exact absurd h1 h
      · right; simp [lexLe, Ne.symm h, h1]

theorem lexLe_trans : ∀ a b c : Str,
    lexLe a b = true → lexLe b c = true → lexLe a c = true
  | [], _, _, _, _ => rfl
  | x :: s, [], _, hab, _ => by simp [lexLe] at hab
  | _ :: _, _ :: _, [], _, hbc => by simp [lexLe] at hbc
  | x :: s, y :: t, z :: u, hab, hbc => by
    by_cases hxy : x = y
    · subst hxy
      by_cases hyz : x = z
      · subst hyz
        simp only [lexLe, if_pos rfl] at hab hbc ⊢
        exact lexLe_trans _ _ _ hab hbc
      · simp only [lexLe, if_pos rfl] at hab
        simpa [lexLe, hyz] using hbc
    · by_cases hyz : y = z
      · subst hyz
        simpa [lexLe, hxy] using hab
      · have hab' : x < y := by simpa [lexLe, hxy] using hab
        have hbc' : y < z := by simpa [lexLe, hyz] using hbc
        have hxz : x < z := lt_trans hab' hbc'
        simp [lexLe, ne_of_lt hxz, hxz]

theorem lexLe_antisymm : ∀ a b : Str,
    lexLe a b = true → lexLe b a = true → a = b
  | [], [], _, _ => rfl
  | [], _ :: _, _, hba => by simp [lexLe] at hba
  | _ :: _, [], hab, _ => by simp [lexLe] at hab
  | x :: s, y :: t, hab, hba => by
    by_cases hxy : x = y
    · subst hxy
      simp only [lexLe, if_pos rfl] at hab hba
      rw [lexLe_antisymm _ _ hab hba]
    · have h1 : x < y := by simpa [lexLe, hxy] using hab
      have h2 : y < x := by simpa [lexLe, Ne.symm hxy] using hba
      exact absurd (lt_trans h1 h2) (lt_irrefl x)

theorem optNameLe_total : ∀ a b : Option Str,
    optNameLe a b = true ∨ optNameLe b a = true
  | none, _ => Or.inl rfl
  | some _, none => Or.inr rfl
  | some a, some b => by simpa [optNameLe] using lexLe_total a b

theorem optNameLe_trans : ∀ a b c : Option Str,
    optNameLe a b = true → optNameLe b c = true → optNameLe a c = true
  | none, _, _, _, _ => rfl
  | some _, none, _, hab, _ => by simp [optNameLe] at hab
  | some _, some _, none, _, hbc => by simp [optNameLe] at hbc
  | some a, some b, some c, hab, hbc => by
    simp only [optNameLe] at hab hbc ⊢
    exact lexLe_trans _ _ _ hab hbc

theorem optNameLe_antisymm : ∀ a b : Option Str,
    optNameLe a b = true → optNameLe b a = true → a = b
  | none, none, _, _ => rfl
  | none, some _, _, hba => by simp [optNameLe] at hba
  | some _, none, hab, _ => by simp [optNameLe] at hab
  | some a, some b, hab, hba => by
    simp only [optNameLe] at hab hba
    rw [lexLe_antisymm _ _ hab hba]

theorem lexStep_elim {α : Type} [LinearOrder α] {x y : α} {p : Bool}
    (h : (if x ≠ y then decide (x < y) else p) = true) :
    x < y ∨ (x = y ∧ p = true) := by
  by_cases hxy : x = y
  · right
    refine ⟨hxy, ?_⟩
    rwa [if_neg (by simpa using hxy)] at h
  · left
    rw [if_pos hxy] at h
    exact of_decide_eq_true h

theorem lexStep_intro {α : Type} [LinearOrder α] {x y : α} {p : Bool}
    (h : x < y ∨ (x = y ∧ p = true)) :
    (if x ≠ y then decide (x < y) else p) = true := by
  rcases h with h | ⟨he, hp⟩
  · rw [if_pos (ne_of_lt h)]
    exact decide_eq_true h
  · subst he
    rwa [if_neg (by simp)]

theorem lexStep_trans {α : Type} [LinearOrder α] {x y z : α} {p q r : Bool}
    (hpq : (if x ≠ y then decide (x < y) else p) = true)
    (hqr : (if y ≠ z then decide (y < z) else q) = true)
    (hrec : p = true → q = true → r = true) :
    (if x ≠ z then decide (x < z) else r) = true := by
  rcases lexStep_elim hpq with h1 | ⟨he1, hp⟩
  · rcases lexStep_elim hqr with h2 | ⟨he2, _⟩
    · exact lexStep_intro (Or.inl (lt_trans h1 h2))
    · exact lexStep_intro (Or.inl (he2 ▸ h1))
  · rcases lexStep_elim hqr with h2 | ⟨he2, hq⟩
    · exact lexStep_intro (Or.inl (he1 ▸ h2))
    · exact lexStep_intro (Or.inr ⟨he1.trans he2, hrec hp hq⟩)

theorem lexStep_total {α : Type} [LinearOrder α] {x y : α} {p q : Bool}
    (hrec : (p || q) = true) :
    ((if x ≠ y then decide (x < y) else p) ||
      (if y ≠ x then decide (y < x) else q)) = true := by
  rcases lt_trichotomy x y with h1 | h1 | h1
  · rw [lexStep_intro (Or.inl h1)]
    rfl
  · rcases Bool.or_eq_true_iff.mp hrec with hp | hq
    · rw [lexStep_intro (Or.inr ⟨h1, hp⟩)]
      rfl
    · rw [lexStep_intro (Or.inr ⟨h1.symm, hq⟩)]
      simp
  · rw [lexStep_intro (Or.inl h1)]
    simp

theorem lexStep2_elim {α : Type} [DecidableEq α] {x y : α} {le : α → α → Bool}
    {p : Bool} (h : (if x ≠ y then le x y else p) = true) :
    (x ≠ y ∧ le x y = true) ∨ (x = y ∧ p = true) := by
  by_cases hxy : x = y
  · right
    refine ⟨hxy, ?_⟩
    rwa [if_neg (by simpa using hxy)] at h
  · left
    rw [if_pos hxy] at h
    exact ⟨hxy, h⟩

theorem lexStep2_intro {α : Type} [DecidableEq α] {x y : α} {le : α → α → Bool}
    {p : Bool} (h : (x ≠ y ∧ le x y = true) ∨ (x = y ∧ p = true)) :
    (if x ≠ y then le x y else p) = true := by
  rcases h with ⟨hne, hle⟩ | ⟨he, hp⟩
  · rwa [if_pos hne]
  · subst he
    rwa [if_neg (by simp)]

theorem lexStep2_trans {α : Type} [DecidableEq α] {x y z : α}
    {le : α → α → Bool}
    (hletrans : ∀ a b c, le a b = true → le b c = true → le a c = true)
    (hleanti : ∀ a b, le a b = true → le b a = true → a = b)
    {p q r : Bool}
    (hpq : (if x ≠ y then le x y else p) = true)
    (hqr : (if y ≠ z then le y z else q) = true)
    (hrec : p = true → q = true → r = true) :
    (if x ≠ z then le x z else r) = true := by
  rcases lexStep2_elim hpq with ⟨hne1, h1⟩ | ⟨he1, hp⟩
  · rcases lexStep2_elim hqr with ⟨hne2, h2⟩ | ⟨he2, _⟩
    · refine lexStep2_intro (Or.inl ⟨?_, hletrans _ _ _ h1 h2⟩)
      intro he
      exact hne1 (hleanti _ _ h1 (he ▸ h2))
    · exact lexStep2_intro (Or.inl ⟨he2 ▸ hne1, he2 ▸ h1⟩)
  · rcases lexStep2_elim hqr with ⟨hne2, h2⟩ | ⟨he2, hq⟩
    · exact lexStep2_intro (Or.inl ⟨fun he => hne2 (he1 ▸ he), he1 ▸ h2⟩)
    · exact lexStep2_intro (Or.inr ⟨he1.trans he2, hrec hp hq⟩)

theorem lexStep2_total {α : Type} [DecidableEq α] {x y : α}
    {le : α → α → Bool}
    (hletotal : ∀ a b, le a b = true ∨ le b a = true) {p q : Bool}
    (hrec : (p || q) = true) :
    ((if x ≠ y then le x y else p) || (if y ≠ x then le y x else q)) = true := by
  by_cases h : x = y
  · subst h
    rcases Bool.or_eq_true_iff.mp hrec with hp | hq
    · rw [lexStep2_intro (Or.inr ⟨rfl, hp⟩)]
      rfl
    · rw [@lexStep2_intro _ _ _ _ le _ (Or.inr ⟨rfl, hq⟩)]
      simp
  · rcases hletotal x y with hle | hle
    · rw [lexStep2_intro (Or.inl ⟨h, hle⟩)]
      rfl
    · rw [lexStep2_intro (Or.inl ⟨Ne.symm h, hle⟩)]
      simp

theorem row4Le_trans (a b c : Row4) (hab : row4Le a b = true)
    (hbc : row4Le b c = true) : row4Le a c = true := by
  unfold row4Le at hab hbc ⊢
  refine lexStep_trans hab hbc (fun h1 h2 => ?_)
  refine lexStep_trans h1 h2 (fun h3 h4 => ?_)
  refine lexStep2_trans optNameLe_trans optNameLe_antisymm h3 h4
    (fun h5 h6 => ?_)
  exact lexLe_trans _ _ _ h5 h6

theorem row4Le_total (a b : Row4) : (row4Le a b || row4Le b a) = true := by
  unfold row4Le
  refine lexStep_total (lexStep_total (lexStep2_total optNameLe_total ?_))
  rcases lexLe_total a.2.2.2 b.2.2.2 with h | h <;> simp [h]

theorem helpCollectGo_eq (env : FileEnv) (root : GNode) :
    ∀ fuel kids ctx,
      helpCollectGo env root fuel kids ctx =
        (visibleFilterM env root fuel kids ctx).map
          (fun vk => vk.flatMap taggedHelp) := by
  intro fuel
  induction fuel with
  | zero => intro kids ctx; cases kids <;> rfl
  | succ fuel ih =>
    intro kids ctx
    cases kids with
    | nil => rfl
    | cons ch rest =>
      unfold helpCollectGo visibleFilterM
      cases hv : visibleN env root fuel ch ctx with
      | error e => simp [hv, bindE_err, Except.map]
      | ok v =>
        simp only [hv, bindE_ok]
        rw [ih rest ctx]
        cases hm : visibleFilterM env root fuel rest ctx with
        | error e => simp [bindE_err, Except.map]
        | ok vkids =>
          cases v <;>
            simp [bindE_ok, Except.map, taggedHelp, List.flatMap_cons]

/-- C8: a successful help collection is sorted ascending by the full
`(group, order, key, text)` tuple, is a permutation of one tagged row per
help row of each visible followed child, and iteration yields the
`(group, key, text)` projection in that order. -/
theorem C8_help_sorted (env : FileEnv) (root : GNode) (fuel : Nat)
    (loc : LNode) (ctx : Context) (rows : List Row4)
    (h : helpCollect env root (fuel + 1) loc ctx = .ok rows) :
    List.Sorted (fun a b => row4Le a b = true) rows ∧
    (∃ kids vkids,
        childrenN env root fuel loc ctx true = .ok kids ∧
        visibleFilterM env root fuel kids ctx = .ok vkids ∧
        rows.Perm (vkids.flatMap taggedHelp)) ∧
    helpIter rows = rows.map (fun r => (r.1, r.2.2.1, r.2.2.2)) := by
  unfold helpCollect at h
  obtain ⟨kids, hkids, h2⟩ := exceptBind_ok h
  obtain ⟨raw, hraw, h3⟩ := exceptBind_ok h2
  have hrows : rows = raw.mergeSort row4Le := by
    injection h3 with h4
    exact h4.symm
  subst hrows
  rw [helpCollectGo_eq] at hraw
  cases hm : visibleFilterM env root fuel kids ctx with
  | error e => rw [hm] at hraw; cases hraw
  | ok vkids =>
    rw [hm] at hraw
    have hraw2 : raw = vkids.flatMap taggedHelp := by
      injection hraw with h5
      exact h5.symm
    subst hraw2
    refine ⟨List.sorted_mergeSort (fun a b c => row4Le_trans a b c)
        (fun a b => row4Le_total a b) _,
      ⟨kids, vkids, hkids, hm, List.mergeSort_perm _ _⟩, rfl⟩

/-- Witness for C8: the two-child grammar `gHelp` with groups 0 and 2. -/
theorem C8_witness :
    List.Sorted (fun a b => row4Le a b = true)
      [((0 : Int), (0 : Int), some "one".toList, "1".toList),
       ((2 : Int), (0 : Int), some "two".toList, "2".toList)] ∧
    (∃ kids vkids,
        childrenN envT gHelp 29 ⟨[], gHelp⟩ { command := [] } true = .ok kids ∧
        visibleFilterM envT gHelp 29 kids { command := [] } = .ok vkids ∧
        List.Perm
          [((0 : Int), (0 : Int), some "one".toList, "1".toList),
           ((2 : Int), (0 : Int), some "two".toList, "2".toList)]
          (vkids.flatMap taggedHelp)) ∧
    helpIter
        [((0 : Int), (0 : Int), some "one".toList, "1".toList),
         ((2 : Int), (0 : Int), some "two".toList, "2".toList)]
      = List.map (fun r => (r.1, r.2.2.1, r.2.2.2))
          [((0 : Int), (0 : Int), some "one".toList, "1".toList),
           ((2 : Int), (0 : Int), some "two".toList, "2".toList)] :=
  C8_help_sorted envT gHelp 29 ⟨[], gHelp⟩ { command := [] } _ rfl


theorem mapE_ok {α β : Type} (f : α → β) (v : α) :
    (Except.ok v : Except Err α).map f = .ok (f v) := rfl

theorem mapE_err {α β : Type} (f : α → β) (e : Err) :
    (Except.error e : Except Err α).map f = .error e := rfl

theorem noIT_bind {α β : Type} {a : Except Err α} {f : α → Except Err β}
    (ha : noInvalidToken a) (hf : ∀ v, noInvalidToken (f v)) :
    noInvalidToken (a >>= f) := by
  cases a with
  | ok v => rw [bindE_ok]; exact hf v
  | error e =>
    rw [bindE_err]
    intro c h
    injection h with h1
    exact ha c (by rw [h1])

theorem noIT_ok {α : Type} (v : α) :
    noInvalidToken (Except.ok v : Except Err α) := by
  intro c h
  cases h

theorem noIT_of_ne {α : Type} {e : Err} (he : ∀ c, e ≠ Err.invalidToken c) :
    noInvalidToken (Except.error e : Except Err α) := by
  intro c h
  injection h with h1
  exact he c h1

theorem noIT_fuel {α : Type} :
    noInvalidToken (Except.error Err.outOfFuel : Except Err α) :=
  noIT_of_ne (fun _ h => nomatch h)

theorem mapE_noIT {α β : Type} {x : Except Err α} (hx : noInvalidToken x)
    (f : α → β) : noInvalidToken (x.map f) := by
  cases x with
  | ok v => rw [mapE_ok]; exact noIT_ok _
  | error e =>
    rw [mapE_err]
    intro c h
    injection h with h1
    exact hx c (by rw [h1])

theorem walkAcc_noIT : ∀ (comps : List Str) (n : GNode) (acc : List Str),
    noInvalidToken (walkAcc n acc comps)
  | [], _, _ => noIT_ok _
  | c :: cs, n, acc => by
    unfold walkAcc
    split
    · exact walkAcc_noIT cs _ _
    · exact noIT_of_ne (fun _ h => nomatch h)

theorem findFromRoot_noIT (root : GNode) (path : Str) :
    noInvalidToken (findFromRoot root path) :=
  walkAcc_noIT _ _ _

theorem variableValid_noIT (loc : LNode) (ctx : Context) :
    noInvalidToken (variableValid loc ctx) := by
  unfold variableValid
  split
  · exact noIT_ok _
  · split
    · exact noIT_ok _
    · split
      · exact noIT_of_ne (fun _ h => nomatch h)
      · split
        · exact noIT_ok _
        · exact noIT_ok _

theorem helpers_noIT (env : FileEnv) (root : GNode) : ∀ fuel : Nat,
    (∀ loc ctx, noInvalidToken (followN env root fuel loc ctx)) ∧
    (∀ loc ctx, noInvalidToken (validN env root fuel loc ctx)) ∧
    (∀ ts ctx, noInvalidToken (anyValidGo env root fuel ts ctx)) ∧
    (∀ locs ctx ff, noInvalidToken (childrenGo env root fuel locs ctx ff)) ∧
    (∀ loc ctx ff, noInvalidToken (childrenN env root fuel loc ctx ff)) ∧
    (∀ bs ctx, noInvalidToken (filterValid env root fuel bs ctx)) := by
  intro fuel
  induction fuel with
  | zero =>
    refine ⟨fun _ _ => noIT_fuel, fun _ _ => noIT_fuel, ?_, ?_,
      fun _ _ _ => noIT_fuel, ?_⟩
    · intro ts ctx
      cases ts with
      | nil => exact noIT_ok _
      | cons t ts => exact noIT_fuel
    · intro locs ctx ff
      cases locs with
      | nil => exact noIT_ok _
      | cons a l => exact noIT_fuel
    · intro bs ctx
      cases bs with
      | nil => exact noIT_ok _
      | cons b bs => exact noIT_fuel
  | succ fuel ih =>
    obtain ⟨ihF, ihV, ihAV, ihCG, ihCN, ihFV⟩ := ih
    have hF : ∀ loc ctx, noInvalidToken (followN env root (fuel + 1) loc ctx) := by
      intro loc ctx
      unfold followN
      split
      · split
        · exact noIT_ok _
        · refine noIT_bind (findFromRoot_noIT _ _)
            (fun start => noIT_bind (ihCN start ctx true) (fun kids => noIT_ok _))
      · exact noIT_ok _
      · exact noIT_ok _
    have hV : ∀ loc ctx, noInvalidToken (validN env root (fuel + 1) loc ctx) := by
      intro loc ctx
      unfold validN
      split
      · exact noIT_ok _
      · exact noIT_bind (ihF loc ctx) (fun tgts => ihAV tgts ctx)
      · exact variableValid_noIT loc ctx
      · exact variableValid_noIT loc ctx
      · exact noIT_ok _
    refine ⟨hF, hV, ?_, ?_, ?_, ?_⟩
    · intro ts ctx
      cases ts with
      | nil => exact noIT_ok _
      | cons t ts =>
        refine noIT_bind (ihV t ctx) (fun v => ?_)
        cases v
        · exact ihAV ts ctx
        · exact noIT_ok _
    · intro locs ctx ff
      cases locs with
      | nil => exact noIT_ok _
      | cons ch rest =>
        refine noIT_bind (ihV ch ctx) (fun v =>
          noIT_bind ?_ (fun here =>
            noIT_bind (ihCG rest ctx ff) (fun more => noIT_ok _)))
        cases v
        · exact noIT_ok _
        · cases ff
          · exact noIT_ok _
          · exact noIT_bind (ihF ch ctx) (fun brs => ihFV brs ctx)
    · intro loc ctx ff
      unfold childrenN
      exact ihCG _ ctx ff
    · intro bs ctx
      cases bs with
      | nil => exact noIT_ok _
      | cons b bs =>
        refine noIT_bind (ihV b ctx) (fun v =>
          noIT_bind (ihFV bs ctx) (fun more => ?_))
        cases v
        · exact noIT_ok _
        · exact noIT_ok _

theorem candidatesContainRows_noIT :
    ∀ (rows : List (Option Str × Str)) (text target : Str),
      noInvalidToken (candidatesContainRows rows text target)
  | [], _, _ => noIT_ok _
  | (k?, _) :: rest, text, target => by
    unfold candidatesContainRows
    split
    · exact noIT_of_ne (fun _ h => nomatch h)
    · exact noIT_of_ne (fun _ h => nomatch h)
    · split
      · split
        · exact noIT_ok _
        · exact candidatesContainRows_noIT rest text target
      · exact candidatesContainRows_noIT rest text target

theorem fileFinalList_noIT (clean : Str → Str) (dir : Str) (ad : Bool) :
    ∀ l : List Str, noInvalidToken (fileFinalList clean dir ad l)
  | [] => noIT_ok _
  | f :: rest => by
    unfold fileFinalList
    refine noIT_bind (fileFinalList_noIT clean dir ad rest) (fun more => ?_)
    split
    · exact noIT_ok _
    · split
      · exact noIT_of_ne (fun _ h => nomatch h)
      · split
        · exact noIT_ok _
        · exact noIT_ok _

theorem fileCandsCore_noIT (env : FileEnv) (inc exc : List Str) (ad : Bool)
    (clean : Str → Str) (dir file : Str) :
    noInvalidToken (fileCandsCore env inc exc ad clean dir file) := by
  unfold fileCandsCore
  split
  · split
    · exact noIT_ok _
    · exact noIT_ok _
  · exact fileFinalList_noIT _ _ _ _

theorem fileCandidates_noIT (env : FileEnv) (inc exc : List Str) (ad : Bool)
    (text : Str) : noInvalidToken (fileCandidates env inc exc ad text) := by
  unfold fileCandidates
  exact fileCandsCore_noIT _ _ _ _ _ _ _

theorem candidatesContainN_noIT (env : FileEnv) (loc : LNode)
    (text target : Str) :
    noInvalidToken (candidatesContainN env loc text target) := by
  unfold candidatesContainN
  split
  · exact mapE_noIT (fileCandidates_noIT env _ _ _ text) _
  · exact candidatesContainRows_noIT _ _ _

theorem matchN_noIT (env : FileEnv) (root : GNode) (fuel : Nat) (loc : LNode)
    (ctx : Context) : noInvalidToken (matchN env root fuel loc ctx) := by
  unfold matchN
  split
  · exact noIT_fuel
  · refine noIT_bind ((helpers_noIT env root _).2.1 loc ctx) (fun v => ?_)
    split
    · exact noIT_ok _
    · split
      · exact noIT_ok _
      · split
        · exact noIT_ok _
        · refine noIT_bind ?_ (fun inCands => ?_)
          · split
            · exact candidatesContainN_noIT env loc _ _
            · exact noIT_ok _
          · split
            · exact noIT_ok _
            · split
              · split
                · exact noIT_ok _
                · exact noIT_ok _
              · exact noIT_ok _

theorem advanceN_noIT (loc : LNode) (ctx : Context) :
    noInvalidToken (advanceN loc ctx) := by
  unfold advanceN
  split
  · exact noIT_of_ne (fun _ h => nomatch h)
  · split
    · exact noIT_of_ne (fun _ h => nomatch h)
    · exact noIT_ok _

theorem variableSelected_noIT (vp : VParse) (vno : Option Str) (loc : LNode)
    (m : Option Str) (ctx : Context) :
    noInvalidToken (variableSelected vp vno loc m ctx) := by
  unfold variableSelected
  split
  · exact noIT_of_ne (fun _ h => nomatch h)
  · split
    · split
      · exact noIT_ok _
      · exact noIT_ok _
      · exact noIT_of_ne (fun _ h => nomatch h)
    · exact noIT_ok _

theorem selectedN_noIT (loc : LNode) (m : Option Str) (ctx : Context) :
    noInvalidToken (selectedN loc m ctx) := by
  unfold selectedN
  split
  · exact noIT_of_ne (fun _ h => nomatch h)
  · exact noIT_ok _
  · exact variableSelected_noIT _ _ _ _ _
  · exact variableSelected_noIT _ _ _ _ _
  · exact noIT_ok _

theorem driver_noIT (env : FileEnv) (root : GNode) : ∀ fuel : Nat,
    (∀ loc m ctx, noInvalidToken (parseRec env root fuel loc m ctx)) ∧
    (∀ subs ctx, noInvalidToken (tryChildren env root fuel subs ctx)) := by
  intro fuel
  induction fuel with
  | zero =>
    constructor
    · intro loc m ctx
      exact noIT_fuel
    · intro subs ctx
      cases subs with
      | nil => exact noIT_ok _
      | cons a l => exact noIT_fuel
  | succ fuel ih =>
    constructor
    · intro loc m ctx
      unfold parseRec
      refine noIT_bind ?_ (fun ctx2 =>
        noIT_bind (selectedN_noIT loc m ctx2) (fun ctx3 =>
          noIT_bind ((helpers_noIT env root fuel).2.2.2.2.1 loc ctx3 true)
            (fun subs => ih.2 subs ctx3)))
      cases m with
      | some t => exact advanceN_noIT loc _
      | none => exact noIT_ok _
    · intro subs ctx
      cases subs with
      | nil => exact noIT_ok _
      | cons sub rest =>
        refine noIT_bind ((helpers_noIT env root fuel).2.1 sub ctx) (fun v => ?_)
        cases v
        · exact ih.2 rest ctx
        · refine noIT_bind (matchN_noIT env root (fuel + 1) sub ctx) (fun mm => ?_)
          cases mm with
          | some txt => exact ih.1 sub (some txt) ctx
          | none => exact ih.2 rest ctx

/-- C10: `Parser.parse` never raises `InvalidToken`, for any grammar,
filesystem, fuel, and command: the `raise InvalidToken(context)` after the
inner `for`/`else` is on no control path, because the loop either returns
the recursive result or falls through to the `else` clause's
unconditional `return`.  (`InvalidToken` is only raised later, by
`Context.execute`.) -/
theorem C10_no_invalid_token (env : FileEnv) (root : GNode) (fuel : Nat)
    (cmd : Str) :
    ∀ c0, Parser.parse env root fuel cmd ≠ .error (.invalidToken c0) := by
  intro c0
  unfold Parser.parse
  exact (driver_noIT env root fuel).1 ⟨[], root⟩ none { command := cmd } c0


theorem advanceN_ok {loc : LNode} {ctx c : Context}
    (h : advanceN loc ctx = .ok c) : ∃ d, c = ctx.advance d := by
  unfold advanceN at h
  split at h
  · cases h
  · split at h
    · cases h
    · injection h with h1
      exact ⟨_, h1.symm⟩

theorem variableSelected_shape {vp : VParse} {vno : Option Str} {loc : LNode}
    {m : Option Str} {ctx c : Context}
    (h : variableSelected vp vno loc m ctx = .ok c) :
    ∃ vars2, c = ({ ctx with vars := vars2 }).selectedCtx (pathStr loc.names) := by
  unfold variableSelected at h
  split at h
  · cases h
  · split at h
    · split at h
      · injection h with h1
        exact ⟨_, h1.symm⟩
      · injection h with h1
        exact ⟨_, h1.symm⟩
      · cases h
    · injection h with h1
      exact ⟨_, h1.symm⟩

theorem selectedN_shape {loc : LNode} {m : Option Str} {ctx c : Context}
    (h : selectedN loc m ctx = .ok c) :
    c = ctx ∨
      ∃ vars2, c = ({ ctx with vars := vars2 }).selectedCtx (pathStr loc.names) := by
  unfold selectedN at h
  split at h
  · cases h
  · injection h with h1
    exact Or.inl h1.symm
  · exact Or.inr (variableSelected_shape h)
  · exact Or.inr (variableSelected_shape h)
  · injection h with h1
    refine Or.inr ⟨ctx.vars, ?_⟩
    rw [← h1]

theorem parse_command_preserved (env : FileEnv) (root : GNode) :
    ∀ fuel : Nat,
      (∀ loc m ctx c, parseRec env root fuel loc m ctx = .ok c →
          c.command = ctx.command) ∧
      (∀ subs ctx c, tryChildren env root fuel subs ctx = .ok c →
          c.command = ctx.command) := by
  intro fuel
  induction fuel with
  | zero =>
    constructor
    · intro loc m ctx c h
      cases h
    · intro subs ctx c h
      cases subs with
      | nil => cases h; rfl
      | cons a l => cases h
  | succ fuel ih =>
    constructor
    · intro loc m ctx c h
      unfold parseRec at h
      obtain ⟨ctx2, h2, h3⟩ := exceptBind_ok h
      obtain ⟨ctx3, h4, h5⟩ := exceptBind_ok h3
      obtain ⟨subs, h6, h7⟩ := exceptBind_ok h5
      have e1 : ctx2.command = ctx.command := by
        cases m with
        | none =>
          injection h2 with h2a
          rw [← h2a]
        | some t =>
          obtain ⟨d, hd⟩ := advanceN_ok h2
          rw [hd]
          rfl
      have e2 : ctx3.command = ctx2.command := by
        rcases selectedN_shape h4 with he | ⟨vars2, he⟩
        · rw [he]
        · rw [he]
          rfl
      have e3 : c.command = ctx3.command := ih.2 subs ctx3 c h7
      rw [e3, e2, e1]
    · intro subs ctx c h
      cases subs with
      | nil => cases h; rfl
      | cons sub rest =>
        unfold tryChildren at h
        obtain ⟨v, hv, h2⟩ := exceptBind_ok h
        cases v with
        | false =>
          rw [if_neg (by simp)] at h2
          exact ih.2 rest ctx c h2
        | true =>
          rw [if_pos rfl] at h2
          obtain ⟨mm, hm, h3⟩ := exceptBind_ok h2
          cases mm with
          | some txt => exact ih.1 sub (some txt) ctx c h3
          | none => exact ih.2 rest ctx c h3

/-- C1: for any grammar, fuel and command, a context returned by
`Parser.parse` satisfies `parsed ++ remaining = command`; moreover
`parsed`/`remaining` are the cursor split of the stored command for every
context — so the concatenation invariant holds at every intermediate
state — and `advance` only increments the cursor, leaving the command
unchanged. -/
theorem C1_parse_concatenation (env : FileEnv) (root : GNode) (fuel : Nat)
    (cmd : Str) (c : Context) (h : Parser.parse env root fuel cmd = .ok c) :
    c.parsed ++ c.remaining = cmd ∧
    (∀ ctx : Context, ctx.parsed ++ ctx.remaining = ctx.command) ∧
    (∀ (ctx : Context) (d : Nat),
        (ctx.advance d).cursor = ctx.cursor + d ∧
        (ctx.advance d).command = ctx.command) := by
  have hall : ∀ ctx : Context, ctx.parsed ++ ctx.remaining = ctx.command :=
    fun ctx => List.take_append_drop ctx.cursor ctx.command
  unfold Parser.parse at h
  have hcmd : c.command = cmd :=
    (parse_command_preserved env root fuel).1 ⟨[], root⟩ none { command := cmd } c h
  refine ⟨?_, hall, fun ctx d => ⟨rfl, rfl⟩⟩
  rw [← hcmd]
  exact hall c

/-- Witness for C1: parsing `"quit"` against `gQuit` succeeds, and the
returned context splits the command. -/
theorem C1_witness :
    ∃ c, Parser.parse envT gQuit 30 ("quit".toList) = .ok c ∧
      c.parsed ++ c.remaining = "quit".toList := by
  cases hp : Parser.parse envT gQuit 30 ("quit".toList) with
  | error e =>
    have hok : (Parser.parse envT gQuit 30 ("quit".toList)).isOk = true := rfl
    rw [hp] at hok
    cases hok
  | ok c =>
    exact ⟨c, rfl, (C1_parse_concatenation envT gQuit 30 _ _ hp).1⟩


theorem interc_single (a : Str) : List.intercalate ['/'] [a] = a := by
  simp [List.intercalate, List.intersperse]

theorem interc_cons2 (a b : Str) (t : List Str) :
    List.intercalate ['/'] (a :: b :: t)
      = a ++ '/' :: List.intercalate ['/'] (b :: t) := by
  simp [List.intercalate, List.intersperse]

theorem seg_eq : ∀ (a b x y : Str), ('/' ∈ a → False) → ('/' ∈ b → False) →
    a ++ '/' :: x = b ++ '/' :: y → a = b ∧ x = y
  | [], [], x, y, _, _, h => by
    simp only [List.nil_append] at h
    injection h with _ h2
    exact ⟨rfl, h2⟩
  | [], c :: b, x, y, _, hb, h => by
    exfalso
    simp only [List.nil_append, List.cons_append] at h
    injection h with h1 _
    exact hb (h1 ▸ List.mem_cons_self c b)
  | c :: a, [], x, y, ha, _, h => by
    exfalso
    simp only [List.nil_append, List.cons_append] at h
    injection h with h1 _
    exact ha (h1.symm ▸ List.mem_cons_self c a)
  | c :: a, e :: b, x, y, ha, hb, h => by
    simp only [List.cons_append] at h
    injection h with h1 h2
    obtain ⟨hab, hxy⟩ := seg_eq a b x y
      (fun hm => ha (List.mem_cons_of_mem c hm))
      (fun hm => hb (List.mem_cons_of_mem e hm)) h2
    exact ⟨by rw [h1, hab], hxy⟩

theorem interc_inj : ∀ (ns ms : List Str),
    (∀ s ∈ ns, s ≠ [] ∧ ('/' ∈ s → False)) →
    (∀ s ∈ ms, s ≠ [] ∧ ('/' ∈ s → False)) →
    List.intercalate ['/'] ns = List.intercalate ['/'] ms → ns = ms
  | [], [], _, _, _ => rfl
  | [], b :: ms, _, h2, h => by
    exfalso
    cases ms with
    | nil =>
      rw [interc_single] at h
      exact (h2 b (List.mem_cons_self b [])).1 h.symm
    | cons b2 ms2 =>
      rw [interc_cons2] at h
      cases hb : b with
      | nil => exact (h2 b (List.mem_cons_self b _)).1 hb
      | cons c t =>
        rw [hb] at h
        simp [List.intercalate] at h
  | a :: ns, [], h1, _, h => by
    exfalso
    cases ns with
    | nil =>
      rw [interc_single] at h
      exact (h1 a (List.mem_cons_self a [])).1 h
    | cons a2 ns2 =>
      rw [interc_cons2] at h
      cases hb : a with
      | nil => exact (h1 a (List.mem_cons_self a _)).1 hb
      | cons c t =>
        rw [hb] at h
        simp [List.intercalate] at h
  | a :: ns, b :: ms, h1, h2, h => by
    cases ns with
    | nil =>
      cases ms with
      | nil =>
        rw [interc_single, interc_single] at h
        rw [h]
      | cons b2 ms2 =>
        exfalso
        rw [interc_single, interc_cons2] at h
        exact (h1 a (List.mem_cons_self a [])).2
          (h ▸ List.mem_append_right b (List.mem_cons_self '/' _))
    | cons a2 ns2 =>
      cases ms with
      | nil =>
        exfalso
        rw [interc_cons2, interc_single] at h
        exact (h2 b (List.mem_cons_self b [])).2
          (h ▸ List.mem_append_right a (List.mem_cons_self '/' _))
      | cons b2 ms2 =>
        rw [interc_cons2, interc_cons2] at h
        obtain ⟨hab, hrest⟩ := seg_eq a b _ _
          (h1 a (List.mem_cons_self a _)).2
          (h2 b (List.mem_cons_self b _)).2 h
        rw [hab, interc_inj (a2 :: ns2) (b2 :: ms2)
          (fun s hs => h1 s (List.mem_cons_of_mem a hs))
          (fun s hs => h2 s (List.mem_cons_of_mem b hs)) hrest]

theorem pathStr_inj {ns ms : List Str}
    (h1 : ∀ s ∈ ns, s ≠ [] ∧ ('/' ∈ s → False))
    (h2 : ∀ s ∈ ms, s ≠ [] ∧ ('/' ∈ s → False))
    (h : pathStr ns = pathStr ms) : ns = ms := by
  unfold pathStr at h
  injection h with _ h4
  exact interc_inj ns ms h1 h2 h4

theorem nodupNames_iff (xs : List (Option Str)) :
    nodupNames xs = true ↔ xs.Nodup := by
  induction xs with
  | nil => simp [nodupNames]
  | cons x t ih =>
    unfold nodupNames
    rw [Bool.and_eq_true, ih, List.nodup_cons]
    constructor
    · rintro ⟨hc, hn⟩
      refine ⟨fun hm => ?_, hn⟩
      rw [Bool.not_eq_true'] at hc
      exact absurd (List.elem_eq_true_of_mem hm) (by simp [List.contains] at hc ⊢; exact hc)
    · rintro ⟨hm, hn⟩
      refine ⟨?_, hn⟩
      rw [Bool.not_eq_true']
      by_contra hc
      have : t.contains x = true := by
        cases hcc : t.contains x
        · exact absurd hcc hc
        · rfl
      exact hm (List.mem_of_elem_eq_true this)

theorem wfD_children {d : Nat} {n c : GNode} (hw : wfD (d + 1) n = true)
    (hc : c ∈ n.children) : nameOkB c.core.name = true ∧ wfD d c = true := by
  unfold wfD at hw
  rw [Bool.and_eq_true, Bool.and_eq_true] at hw
  exact ⟨List.all_eq_true.mp hw.1.1 c hc, List.all_eq_true.mp hw.2 c hc⟩

theorem wfD_nodup {d : Nat} {n : GNode} (hw : wfD (d + 1) n = true) :
    nodupNames (n.children.map fun c => c.core.name) = true := by
  unfold wfD at hw
  rw [Bool.and_eq_true, Bool.and_eq_true] at hw
  exact hw.1.2

theorem mem_sortChildren {l : List GNode} {c : GNode} :
    c ∈ sortChildren l ↔ c ∈ l := by
  unfold sortChildren
  exact List.mem_mergeSort

theorem nodupNames_sortChildren {l : List GNode}
    (h : nodupNames (l.map fun c => c.core.name) = true) :
    nodupNames ((sortChildren l).map fun c => c.core.name) = true := by
  rw [nodupNames_iff] at h ⊢
  unfold sortChildren
  exact (List.Perm.nodup_iff (List.Perm.map _ (List.mergeSort_perm l _))).mpr h

theorem find?_name_unique {l : List GNode} {c : GNode} {nm : Str}
    (hnd : nodupNames (l.map fun ch => ch.core.name) = true)
    (hc : c ∈ l) (hn : c.core.name = some nm) :
    l.find? (fun ch => ch.core.name == some nm) = some c := by
  induction l with
  | nil => cases hc
  | cons h t ih =>
    unfold nodupNames at hnd
    rw [List.map_cons] at hnd
    rw [Bool.and_eq_true] at hnd
    rcases List.mem_cons.mp hc with rfl | hct
    · rw [List.find?_cons]
      simp [hn]
    · have hhne : (h.core.name == some nm) = false := by
        cases hb : h.core.name == some nm
        · rfl
        · exfalso
          have hmem : h.core.name ∈ t.map (fun ch => ch.core.name) := by
            rw [eq_of_beq hb, ← hn]
            exact List.mem_map_of_mem _ hct
          have := hnd.1
          rw [Bool.not_eq_true'] at this
          exact absurd (List.elem_eq_true_of_mem hmem)
            (by simp [List.contains] at this ⊢; exact this)
      rw [List.find?_cons, hhne]
      exact ih hnd.2 hct

theorem walkFind_step {n c : GNode} {nm : Str} {d : Nat}
    (hw : wfD (d + 1) n = true) (hc : c ∈ n.children)
    (hn : c.core.name = some nm) : walkFind n [nm] = some c := by
  unfold walkFind
  rw [find?_name_unique (nodupNames_sortChildren (wfD_nodup hw))
    (mem_sortChildren.mpr hc) hn]
  rfl

theorem walkFind_append : ∀ {ns : List Str} {root n m : GNode} {ms : List Str},
    walkFind root ns = some n → walkFind n ms = some m →
    walkFind root (ns ++ ms) = some m := by
  intro ns
  induction ns with
  | nil =>
    intro root n m ms h1 h2
    unfold walkFind at h1
    injection h1 with h1
    rw [List.nil_append, h1]
    exact h2
  | cons c cs ih =>
    intro root n m ms h1 h2
    rw [List.cons_append]
    unfold walkFind at h1 ⊢
    split at h1
    · exact ih h1 h2
    · cases h1

theorem walkAcc_spec : ∀ (comps : List Str) (n : GNode) (acc : List Str)
    (loc : LNode), walkAcc n acc comps = .ok loc →
    loc.names = acc ++ comps ∧ walkFind n comps = some loc.node
  | [], n, acc, loc => by
    intro h
    unfold walkAcc at h
    injection h with h1
    rw [← h1]
    exact ⟨by simp, rfl⟩
  | c :: cs, n, acc, loc => by
    intro h
    unfold walkAcc at h
    split at h
    · rename_i ch hch
      obtain ⟨hn, hf⟩ := walkAcc_spec cs ch (acc ++ [c]) loc h
      constructor
      · rw [hn, List.append_assoc]
        rfl
      · unfold walkFind
        rw [hch]
        exact hf
    · cases h

theorem wfD_walkFind : ∀ {ns : List Str} {d : Nat} {root n : GNode},
    wfD d root = true → walkFind root ns = some n →
    wfD (d - ns.length) n = true := by
  intro ns
  induction ns with
  | nil =>
    intro d root n hw h
    unfold walkFind at h
    injection h with h1
    rw [← h1]
    simpa using hw
  | cons c cs ih =>
    intro d root n hw h
    unfold walkFind at h
    split at h
    · rename_i ch hch
      cases d with
      | zero => cases hw
      | succ e =>
        have hmem : ch ∈ root.children :=
          mem_sortChildren.mp (List.mem_of_find?_eq_some hch)
        have := (wfD_children hw hmem).2
        have hrec := ih this h
        have harith : e + 1 - (c :: cs).length = e - cs.length := by
          simp [List.length_cons]
        rw [harith]
        exact hrec
    · cases h

theorem walkFind_names_ok : ∀ {ns : List Str} {d : Nat} {root n : GNode},
    wfD d root = true → walkFind root ns = some n →
    ∀ s ∈ ns, s ≠ [] ∧ ('/' ∈ s → False) := by
  intro ns
  induction ns with
  | nil =>
    intro d root n _ _ s hs
    cases hs
  | cons c cs ih =>
    intro d root n hw h s hs
    unfold walkFind at h
    split at h
    · rename_i ch hch
      cases d with
      | zero => cases hw
      | succ e =>
        have hmem : ch ∈ root.children :=
          mem_sortChildren.mp (List.mem_of_find?_eq_some hch)
        obtain ⟨hok, hwc⟩ := wfD_children hw hmem
        have hname := List.find?_some hch
        rcases List.mem_cons.mp hs with rfl | hcs
        · rw [eq_of_beq hname] at hok
          unfold nameOkB at hok
          rw [Bool.and_eq_true] at hok
          refine ⟨by simpa using hok.1, fun hm => ?_⟩
          have := hok.2
          rw [Bool.not_eq_true'] at this
          exact absurd (List.elem_eq_true_of_mem hm)
            (by simp [List.contains] at this ⊢; exact this)
        · exact ih hwc h s hcs
    · cases h


theorem traversedCount_setvars (ctx : Context)
    (v : List (Option Str × Value)) (q : Str) :
    Context.traversedCount { ctx with vars := v } q = ctx.traversedCount q := rfl

theorem traversedCount_advance (ctx : Context) (d : Nat) (q : Str) :
    (ctx.advance d).traversedCount q = ctx.traversedCount q := rfl

theorem traversedCount_trail (ctx : Context)
    (t : List (LNode × Option Str)) (q : Str) :
    Context.traversedCount { ctx with trail := t } q = ctx.traversedCount q := rfl

theorem selectedCtx_count_self (c : Context) (p : Str) :
    (c.selectedCtx p).traversedCount p = c.traversedCount p + 1 := by
  unfold Context.selectedCtx Context.traversedCount
  rw [alistGet?_set_self]
  rfl

theorem selectedCtx_count_other (c : Context) (p q : Str) (h : q ≠ p) :
    (c.selectedCtx p).traversedCount q = c.traversedCount q := by
  unfold Context.selectedCtx Context.traversedCount
  rw [alistGet?_set_other _ _ _ _ h]

theorem nodeValidB_lt {loc : LNode} {ctx : Context}
    (h : nodeValidB loc ctx = true) (ht : 0 < loc.node.core.traversals) :
    ctx.traversedCount (pathStr loc.names) < loc.node.core.traversals := by
  unfold nodeValidB at h
  rw [Bool.or_eq_true] at h
  rcases h with h | h
  · exact absurd (eq_of_beq h) (Nat.pos_iff_ne_zero.mp ht)
  · exact of_decide_eq_true h

theorem variableValid_true {loc : LNode} {ctx : Context}
    (h : variableValid loc ctx = .ok true) : nodeValidB loc ctx = true := by
  unfold variableValid at h
  split at h
  · exact Except.ok.inj h
  · split at h
    · exact Except.ok.inj h
    · split at h
      · cases h
      · split at h
        · exact Except.ok.inj h
        · cases Except.ok.inj h

theorem validN_true_lt {env : FileEnv} {root : GNode} {fuel : Nat}
    {loc : LNode} {ctx : Context}
    (h : validN env root fuel loc ctx = .ok true)
    (hg : isGroupK loc.node.kind = false)
    (ha : isAliasK loc.node.kind = false)
    (ht : 0 < loc.node.core.traversals) :
    ctx.traversedCount (pathStr loc.names) < loc.node.core.traversals := by
  cases fuel with
  | zero => cases h
  | succ fuel =>
    unfold validN at h
    split at h
    · rename_i heq
      rw [heq] at hg
      cases hg
    · rename_i tgt heq
      rw [heq] at ha
      cases ha
    · exact nodeValidB_lt (variableValid_true h) ht
    · exact nodeValidB_lt (variableValid_true h) ht
    · injection h with h1
      exact nodeValidB_lt h1 ht

theorem selectedN_ok_not_alias {loc : LNode} {m : Option Str} {ctx c : Context}
    (h : selectedN loc m ctx = .ok c) : isAliasK loc.node.kind = false := by
  unfold selectedN at h
  split at h
  · cases h
  all_goals first
    | rfl
    | (rename_i heq
       rw [heq]
       rfl)
    | (rename_i hA hB hC hD
       cases hk : loc.node.kind <;>
         first
           | rfl
           | exact (hA _ hk).elim)

theorem findFromRoot_consistent {root : GNode} {p : Str} {ln : LNode}
    (h : findFromRoot root p = .ok ln) : consistentL root ln := by
  unfold findFromRoot at h
  obtain ⟨hn, hf⟩ := walkAcc_spec _ _ _ _ h
  unfold consistentL
  rw [hn, List.nil_append]
  exact hf

theorem sortChildrenL_consistent {d : Nat} {root : GNode} {loc : LNode}
    (hw : wfD d root = true) (hc : consistentL root loc) :
    ∀ l ∈ sortChildrenL loc, consistentL root l := by
  intro l hl
  unfold sortChildrenL at hl
  obtain ⟨c, hcm, hle⟩ := List.mem_map.mp hl
  have hcm2 : c ∈ loc.node.children := mem_sortChildren.mp hcm
  have hwl := wfD_walkFind hw hc
  cases he : d - loc.names.length with
  | zero =>
    rw [he] at hwl
    cases hwl
  | succ e =>
    rw [he] at hwl
    obtain ⟨hok, hwc⟩ := wfD_children hwl hcm2
    cases hn : c.core.name with
    | none =>
      rw [hn] at hok
      cases hok
    | some nm =>
      rw [hn] at hle
      have hstep := walkFind_step hwl hcm2 hn
      have := walkFind_append hc hstep
      unfold consistentL
      rw [← hle]
      exact this

theorem consistency_block (env : FileEnv) (root : GNode) (d : Nat)
    (hw : wfD d root = true) : ∀ fuel : Nat,
    (∀ loc ctx ls, consistentL root loc →
      followN env root fuel loc ctx = .ok ls → ∀ l ∈ ls, consistentL root l) ∧
    (∀ loc ctx ff ls, consistentL root loc →
      childrenN env root fuel loc ctx ff = .ok ls →
      ∀ l ∈ ls, consistentL root l) ∧
    (∀ ls0 ctx ff ls, (∀ l ∈ ls0, consistentL root l) →
      childrenGo env root fuel ls0 ctx ff = .ok ls →
      ∀ l ∈ ls, consistentL root l) ∧
    (∀ ls0 ctx ls, (∀ l ∈ ls0, consistentL root l) →
      filterValid env root fuel ls0 ctx = .ok ls →
      ∀ l ∈ ls, consistentL root l) := by
  intro fuel
  induction fuel with
  | zero =>
    refine ⟨?_, ?_, ?_, ?_⟩
    · intro loc ctx ls _ h
      cases h
    · intro loc ctx ff ls _ h
      cases h
    · intro ls0 ctx ff ls hc h
      cases ls0 with
      | nil =>
        injection h with h1
        rw [← h1]
        intro l hl
        cases hl
      | cons a t => cases h
    · intro ls0 ctx ls hc h
      cases ls0 with
      | nil =>
        injection h with h1
        rw [← h1]
        intro l hl
        cases hl
      | cons a t => cases h
  | succ fuel ih =>
    obtain ⟨ihF, ihN, ihG, ihV⟩ := ih
    refine ⟨?_, ?_, ?_, ?_⟩
    · intro loc ctx ls hc h
      unfold followN at h
      split at h
      · split at h
        · rename_i ln hfind
          injection h with h1
          rw [← h1]
          intro l hl
          rw [List.mem_singleton.mp hl]
          exact findFromRoot_consistent hfind
        · obtain ⟨start, hs, h2⟩ := exceptBind_ok h
          obtain ⟨kids, hk, h3⟩ := exceptBind_ok h2
          injection h3 with h3
          rw [← h3]
          intro l hl
          exact ihN start ctx true kids (findFromRoot_consistent hs) hk l
            (List.mem_of_mem_filter hl)
      · injection h with h1
        rw [← h1]
        exact sortChildrenL_consistent hw hc
      · injection h with h1
        rw [← h1]
        intro l hl
        rw [List.mem_singleton.mp hl]
        exact hc
    · intro loc ctx ff ls hc h
      unfold childrenN at h
      exact ihG _ ctx ff ls (sortChildrenL_consistent hw hc) h
    · intro ls0 ctx ff ls hc h
      cases ls0 with
      | nil =>
        injection h with h1
        rw [← h1]
        intro l hl
        cases hl
      | cons ch rest =>
        unfold childrenGo at h
        obtain ⟨v, hv, h2⟩ := exceptBind_ok h
        obtain ⟨here, hh, h3⟩ := exceptBind_ok h2
        obtain ⟨more, hm, h4⟩ := exceptBind_ok h3
        injection h4 with h4
        rw [← h4]
        intro l hl
        rcases List.mem_append.mp hl with hl | hl
        · split at hh
          · split at hh
            · obtain ⟨brs, hb, hf⟩ := exceptBind_ok hh
              exact ihV brs ctx here
                (ihF ch ctx brs (hc ch (List.mem_cons_self ch rest)) hb) hf l hl
            · injection hh with hh1
              rw [← hh1] at hl
              rw [List.mem_singleton.mp hl]
              exact hc ch (List.mem_cons_self ch rest)
          · injection hh with hh1
            rw [← hh1] at hl
            cases hl
        · exact ihG rest ctx ff more
            (fun x hx => hc x (List.mem_cons_of_mem ch hx)) hm l hl
    · intro ls0 ctx ls hc h
      cases ls0 with
      | nil =>
        injection h with h1
        rw [← h1]
        intro l hl
        cases hl
      | cons b bs =>
        unfold filterValid at h
        obtain ⟨v, hv, h2⟩ := exceptBind_ok h
        obtain ⟨more, hm, h3⟩ := exceptBind_ok h2
        have hmore : ∀ l ∈ more, consistentL root l :=
          ihV bs ctx more (fun x hx => hc x (List.mem_cons_of_mem b hx)) hm
        cases v with
        | true =>
          rw [if_pos rfl] at h3
          injection h3 with h3
          rw [← h3]
          intro l hl
          rcases List.mem_cons.mp hl with he | hl
          · rw [he]
            exact hc b (List.mem_cons_self b bs)
          · exact hmore l hl
        | false =>
          rw [if_neg (by simp)] at h3
          injection h3 with h3
          rw [← h3]
          exact hmore


theorem driver_travBound (env : FileEnv) (root : GNode) (d : Nat)
    (hw : wfD d root = true) : ∀ fuel : Nat,
    (∀ loc m ctx c, consistentL root loc → travBound root ctx →
      (isGroupK loc.node.kind = false → isAliasK loc.node.kind = false →
        0 < loc.node.core.traversals →
        ctx.traversedCount (pathStr loc.names) < loc.node.core.traversals) →
      parseRec env root fuel loc m ctx = .ok c → travBound root c) ∧
    (∀ subs ctx c, (∀ s ∈ subs, consistentL root s) → travBound root ctx →
      tryChildren env root fuel subs ctx = .ok c → travBound root c) := by
  intro fuel
  induction fuel with
  | zero =>
    constructor
    · intro loc m ctx c _ _ _ h
      cases h
    · intro subs ctx c _ hb h
      cases subs with
      | nil =>
        injection h with h1
        rw [← h1]
        exact hb
      | cons a t => cases h
  | succ fuel ih =>
    constructor
    · intro loc m ctx c hcons hb hguard h
      have hcons2 : walkFind root loc.names = some loc.node := hcons
      unfold parseRec at h
      obtain ⟨ctx2, h2, h3⟩ := exceptBind_ok h
      obtain ⟨ctx3, h4, h5⟩ := exceptBind_ok h3
      obtain ⟨subs, h6, h7⟩ := exceptBind_ok h5
      have e2 : ∀ q, ctx2.traversedCount q = ctx.traversedCount q := by
        cases m with
        | none =>
          injection h2 with h2a
          intro q
          rw [← h2a]
          rfl
        | some t =>
          obtain ⟨dd, hd⟩ := advanceN_ok h2
          intro q
          rw [hd]
          rfl
      have hb3 : travBound root ctx3 := by
        intro ns n hwf hng hpos
        rcases selectedN_shape h4 with he | ⟨vars2, he⟩
        · rw [he, e2]
          exact hb ns n hwf hng hpos
        · by_cases hpq : pathStr ns = pathStr loc.names
          · have hns : ns = loc.names :=
              pathStr_inj (walkFind_names_ok hw hwf)
                (walkFind_names_ok hw hcons2) hpq
            have hnn : n = loc.node := by
              rw [hns, hcons2] at hwf
              exact (Option.some.inj hwf).symm
            have halias : isAliasK loc.node.kind = false :=
              selectedN_ok_not_alias h4
            have hng2 : isGroupK loc.node.kind = false := by
              rw [← hnn]
              exact hng
            have hpos2 : 0 < loc.node.core.traversals := by
              rw [← hnn]
              exact hpos
            have hlt := hguard hng2 halias hpos2
            rw [he, hpq, selectedCtx_count_self, traversedCount_setvars, e2,
              hnn]
            omega
          · rw [he, selectedCtx_count_other _ _ _ hpq, traversedCount_setvars,
              e2]
            exact hb ns n hwf hng hpos
      have hsubs : ∀ s ∈ subs, consistentL root s :=
        (consistency_block env root d hw fuel).2.1 loc ctx3 true subs hcons h6
      exact ih.2 subs ctx3 c hsubs hb3 h7
    · intro subs ctx c hs hb h
      cases subs with
      | nil =>
        injection h with h1
        rw [← h1]
        exact hb
      | cons sub rest =>
        unfold tryChildren at h
        obtain ⟨v, hv, h2⟩ := exceptBind_ok h
        cases v with
        | false =>
          rw [if_neg (by simp)] at h2
          exact ih.2 rest ctx c
            (fun x hx => hs x (List.mem_cons_of_mem sub hx)) hb h2
        | true =>
          rw [if_pos rfl] at h2
          obtain ⟨mm, hm, h3⟩ := exceptBind_ok h2
          cases mm with
          | none =>
            exact ih.2 rest ctx c
              (fun x hx => hs x (List.mem_cons_of_mem sub hx)) hb h3
          | some txt =>
            exact ih.1 sub (some txt) ctx c (hs sub (List.mem_cons_self sub rest))
              hb (fun hg ha hp => validN_true_lt hv hg ha hp) h3

/-- C2 (corrected): in a well-formed grammar (`wfD`), for every context
produced by `Parser.parse` and every reachable non-`Group` node with a
positive `traversals` limit, the context's per-path traversal counter for
that node never exceeds the limit.  The qualifier "non-`Group`" is the
correction: `Group.valid` is unconditionally true, so a `Group` reachable
through aliases can be selected past its limit (see the
counterexample). -/
theorem C2_traversal_bound (env : FileEnv) (root : GNode) (d fuel : Nat)
    (cmd : Str) (c : Context) (hw : wfD d root = true)
    (h : Parser.parse env root fuel cmd = .ok c) :
    ∀ ns n, walkFind root ns = some n → isGroupK n.kind = false →
      0 < n.core.traversals →
      c.traversedCount (pathStr ns) ≤ n.core.traversals := by
  unfold Parser.parse at h
  have h0 : travBound root { command := cmd } := by
    intro ns n _ _ _
    exact Nat.zero_le _
  exact (driver_travBound env root d hw fuel).1 ⟨[], root⟩ none
    { command := cmd } c rfl h0 (fun _ _ hp => hp) h

/-- C2 counterexample: in the well-formed grammar
`Grammar(a1=Alias('/g'), g=Group()(x=Node(...)(a2=Alias('/g'))))`, parsing
`' x'` traverses the `Group` at `/g` twice — once through each alias —
although its `traversals` limit is 1, because `Group.valid` is
unconditionally `True`.  The original unqualified bound is therefore
false. -/
theorem C2_counterexample :
    wfD 4 gGroupCx = true ∧
    walkFind gGroupCx ["g".toList] =
      some (groupNode "g" [plainNode "x" "An x" [aliasNode "a2" "/g"]]) ∧
    (groupNode "g" [plainNode "x" "An x" [aliasNode "a2" "/g"]]).core.traversals
      = 1 ∧
    (Parser.parse envT gGroupCx 40 (" x".toList)).map
      (fun c => c.traversedCount (pathStr ["g".toList])) = .ok 2 ∧
    ¬ (2 ≤ 1) := by
  exact ⟨rfl, rfl, rfl, rfl, by decide⟩

/-- Witness for C2: the corrected bound applied to the `Integer` grammar
and the command `'123 '`, at the variable node `/n`. -/
theorem C2_witness :
    ∃ c, Parser.parse envT gInteger 20 ("123 ".toList) = .ok c ∧
      c.traversedCount (pathStr ["n".toList]) ≤
        (integerNode "n").core.traversals := by
  cases hp : Parser.parse envT gInteger 20 ("123 ".toList) with
  | error e =>
    exfalso
    have hok : (Parser.parse envT gInteger 20 ("123 ".toList)).isOk = true := rfl
    rw [hp] at hok
    cases hok
  | ok c =>
    refine ⟨c, rfl, ?_⟩
    exact C2_traversal_bound envT gInteger 2 20 ("123 ".toList) c rfl hp
      ["n".toList] (integerNode "n") rfl rfl (by decide)

end Cly
